import Mathlib

/-!
# Verification of the `uns_metadata_sync` metadata synchronization core

This file shallowly embeds the parts of the repository needed to settle the
frozen claims: the CDC checkpoint stores (`cdc/checkpoint.py`), the diff
accumulator (`cdc/diffing.py`), the debounce buffer (`cdc/debounce.py`), the
metadata repository's property typing and bulk upserts (`db/repository.py`),
the Canary client's retry policy, circuit breaker and dispatch loop
(`canary/client.py`), the Sparkplug compression wrapper detection
(`sparkplug_b_utils.py`), and the alias cache serialization
(`alias_cache.py`).

Python `dict`s are embedded as association lists with insertion-order
preserving assignment (`Dict.set` mirrors `d[k] = v`: an existing key keeps
its position and gets the new value, a fresh key is appended), matching
CPython's documented iteration-order semantics.  Python `float` time values
and delays are embedded as rationals (the code performs only comparisons,
additions, multiplications by 2 and min/max on them).  Python `int` is `Int`.
-/

namespace UnsMetadataSync

/-! ## Python dict embedding -/

/-- Lookup, mirroring Python `d.get(k)`. -/
def dictGet {κ ω : Type} [DecidableEq κ] (k : κ) : List (κ × ω) → Option ω
  | [] => none
  | (k', v) :: rest => if k = k' then some v else dictGet k rest

/-- Assignment `d[k] = v`: overwrite in place when the key exists (keeping
its position, as CPython does), otherwise append. -/
def dictSet {κ ω : Type} [DecidableEq κ] (k : κ) (v : ω) : List (κ × ω) → List (κ × ω)
  | [] => [(k, v)]
  | (k', v') :: rest => if k = k' then (k, v) :: rest else (k', v') :: dictSet k v rest

/-- Removal `d.pop(k, None)`: drop the first entry with the key. -/
def dictPop {κ ω : Type} [DecidableEq κ] (k : κ) : List (κ × ω) → List (κ × ω)
  | [] => []
  | (k', v') :: rest => if k = k' then rest else (k', v') :: dictPop k rest

theorem dictGet_dictSet_self {κ ω : Type} [DecidableEq κ] (k : κ) (v : ω)
    (d : List (κ × ω)) : dictGet k (dictSet k v d) = some v := by
  induction d with
  | nil => simp [dictSet, dictGet]
  | cons hd tl ih =>
    obtain ⟨k', v'⟩ := hd
    by_cases h : k = k' <;> simp [dictSet, dictGet, h, ih]

theorem dictGet_dictSet_ne {κ ω : Type} [DecidableEq κ] {k k' : κ} (v : ω)
    (d : List (κ × ω)) (h : k' ≠ k) : dictGet k' (dictSet k v d) = dictGet k' d := by
  induction d with
  | nil => simp [dictSet, dictGet, h]
  | cons hd tl ih =>
    obtain ⟨k₀, v₀⟩ := hd
    by_cases hk : k = k₀
    · subst hk; simp [dictSet, dictGet, h]
    · by_cases hk' : k' = k₀ <;> simp [dictSet, dictGet, hk, hk', ih]

/-- Folding plain dict assignment over a pair list (Python `dict.update` /
a `for key, value in d.items(): target[key] = value` loop) leaves keys not
mentioned in the list untouched. -/
theorem dictGet_foldl_dictSet_not_mem {κ ω : Type} [DecidableEq κ] {k : κ} :
    ∀ (cs : List (κ × ω)) (m : List (κ × ω)), k ∉ cs.map Prod.fst →
      dictGet k (cs.foldl (fun p kv => dictSet kv.1 kv.2 p) m) = dictGet k m := by
  intro cs
  induction cs with
  | nil => intro m _; simp
  | cons hd tl ih =>
    intro m hk
    obtain ⟨k', v'⟩ := hd
    simp only [List.map, List.mem_cons] at hk
    push_neg at hk
    simp only [List.foldl]
    rw [ih _ hk.2, dictGet_dictSet_ne _ m hk.1]

/-- Folding plain dict assignment over a pair list with distinct keys sets
each mentioned key to its listed value (last-write-wins degenerates to the
unique write). -/
theorem dictGet_foldl_dictSet_mem {κ ω : Type} [DecidableEq κ] {k : κ} {v : ω} :
    ∀ (cs : List (κ × ω)) (m : List (κ × ω)),
      (cs.map Prod.fst).Nodup → (k, v) ∈ cs →
      dictGet k (cs.foldl (fun p kv => dictSet kv.1 kv.2 p) m) = some v := by
  intro cs
  induction cs with
  | nil => intro m _ hmem; cases hmem
  | cons hd tl ih =>
    intro m hnd hmem
    obtain ⟨k', v'⟩ := hd
    simp only [List.map, List.nodup_cons] at hnd
    rcases List.mem_cons.1 hmem with heq | hmem'
    · injection heq with hk hv
      subst hk
      subst hv
      simp only [List.foldl]
      rw [dictGet_foldl_dictSet_not_mem tl _ hnd.1, dictGet_dictSet_self]
    · have hk' : k ≠ k' := by
        intro h
        subst h
        exact hnd.1 (List.mem_map.2 ⟨(k, v), hmem', rfl⟩)
      simp only [List.foldl]
      exact ih _ hnd.2 hmem'

/-- Assignment to an already-present key does not change a dict's size. -/
theorem length_dictSet_of_get {κ ω : Type} [DecidableEq κ] {k : κ} {w : ω} (v : ω) :
    ∀ d : List (κ × ω), dictGet k d = some w → (dictSet k v d).length = d.length := by
  intro d
  induction d with
  | nil => intro h; cases h
  | cons hd tl ih =>
    intro h
    obtain ⟨k', v'⟩ := hd
    by_cases hk : k = k'
    · simp [dictSet, hk]
    · simp only [dictGet, if_neg hk] at h
      simp [dictSet, hk, ih h]

/-- Python `set.add` on a set embedded as a duplicate-free list. -/
def setAdd (s : List String) (x : String) : List String :=
  if x ∈ s then s else s ++ [x]

/-! ## `cdc/checkpoint.py` — checkpoint stores

Both stores keep `slot_name → lsn` in a `Dict[str, int]`; the persistent
store additionally serializes `_positions` to disk, which does not affect
the `load`/`save`/`reset` results modelled here. -/

namespace Checkpoint

/-- The `_positions` mapping of either store. -/
def Positions : Type := List (String × Int)

/-- `InMemoryCheckpointStore.load` / `PersistentCheckpointStore.load`. -/
def load (pos : Positions) (slot : String) : Option Int :=
  dictGet slot pos

/-- `InMemoryCheckpointStore.save`: store only when the slot is new or the
lsn strictly exceeds the current value. -/
def saveInMemory (pos : Positions) (slot : String) (lsn : Int) : Positions :=
  match dictGet slot pos with
  | none => dictSet slot lsn pos
  | some current => if lsn > current then dictSet slot lsn pos else pos

/-- `PersistentCheckpointStore.save`: return early when `lsn <= current`,
otherwise assign (and persist, which we do not model). -/
def savePersistent (pos : Positions) (slot : String) (lsn : Int) : Positions :=
  match dictGet slot pos with
  | some current => if lsn ≤ current then pos else dictSet slot lsn pos
  | none => dictSet slot lsn pos

/-- `InMemoryCheckpointStore.reset`.  `expected`/`newLsn` mirror the
`expected_lsn`/`new_lsn` keyword arguments; errors mirror the raised
`ValueError`s; the returned positions are the state after the call. -/
def resetInMemory (pos : Positions) (slot : String)
    (expected newLsn : Option Int) (force : Bool) : Except String Positions :=
  let current := dictGet slot pos
  if current = none ∧ newLsn = none then
    if ¬force ∧ ¬(expected = none) then
      .error "resume token missing; supply force=True to reset"
    else
      .ok pos
  else
    let proceed : Except String Unit :=
      if force then .ok ()
      else
        match current with
        | none =>
          if ¬(expected = none) then
            .error "resume token missing; supply force=True to reset"
          else .ok ()
        | some c =>
          if expected = none ∨ ¬(expected = some c) then
            .error "unexpected resume token value"
          else
            match newLsn with
            | some n =>
              if n > c then .error "new resume token must not exceed current value"
              else .ok ()
            | none => .ok ()
    match proceed with
    | .error e => .error e
    | .ok _ =>
      match newLsn with
      | none => .ok (dictPop slot pos)
      | some n => .ok (dictSet slot n pos)

/-- `PersistentCheckpointStore.reset`: same precondition structure (with the
persistent error message); when clearing an absent slot it returns before
touching the file, which leaves the positions equally unchanged. -/
def resetPersistent (pos : Positions) (slot : String)
    (expected newLsn : Option Int) (force : Bool) : Except String Positions :=
  let current := dictGet slot pos
  if current = none ∧ newLsn = none then
    if ¬force ∧ ¬(expected = none) then
      .error "resume token does not exist for slot"
    else
      .ok pos
  else
    let proceed : Except String Unit :=
      if force then .ok ()
      else
        match current with
        | none =>
          if ¬(expected = none) then
            .error "resume token does not exist for slot"
          else .ok ()
        | some c =>
          if expected = none ∨ ¬(expected = some c) then
            .error "unexpected resume token value"
          else
            match newLsn with
            | some n =>
              if n > c then .error "new resume token must not exceed current value"
              else .ok ()
            | none => .ok ()
    match proceed with
    | .error e => .error e
    | .ok _ =>
      match newLsn with
      | none =>
        match current with
        | none => .ok pos
        | some _ => .ok (dictPop slot pos)
      | some n => .ok (dictSet slot n pos)

/-- Applying a whole sequence of `save` calls for one slot. -/
def runSaves (save : Positions → String → Int → Positions)
    (pos : Positions) (slot : String) (lsns : List Int) : Positions :=
  lsns.foldl (fun p l => save p slot l) pos

theorem load_saveInMemory_none {pos : Positions} {slot : String} (lsn : Int)
    (h : load pos slot = none) : load (saveInMemory pos slot lsn) slot = some lsn := by
  unfold load at h ⊢
  unfold saveInMemory
  rw [h]
  exact dictGet_dictSet_self slot lsn pos

theorem load_saveInMemory_some {pos : Positions} {slot : String} {c : Int} (lsn : Int)
    (h : load pos slot = some c) :
    load (saveInMemory pos slot lsn) slot = some (max c lsn) := by
  unfold load at h ⊢
  unfold saveInMemory
  rw [h]
  by_cases hlt : lsn > c
  · simp only [hlt, if_true]
    rw [dictGet_dictSet_self]
    congr 1
    omega
  · simp only [hlt, if_false]
    rw [h]
    congr 1
    omega

theorem load_savePersistent_none {pos : Positions} {slot : String} (lsn : Int)
    (h : load pos slot = none) : load (savePersistent pos slot lsn) slot = some lsn := by
  unfold load at h ⊢
  unfold savePersistent
  rw [h]
  exact dictGet_dictSet_self slot lsn pos

theorem load_savePersistent_some {pos : Positions} {slot : String} {c : Int} (lsn : Int)
    (h : load pos slot = some c) :
    load (savePersistent pos slot lsn) slot = some (max c lsn) := by
  unfold load at h ⊢
  unfold savePersistent
  rw [h]
  by_cases hle : lsn ≤ c
  · simp only [hle, if_true]
    rw [h]
    congr 1
    omega
  · simp only [hle, if_false]
    rw [dictGet_dictSet_self]
    congr 1
    omega

theorem load_runSaves_inMemory {slot : String} (lsns : List Int) :
    ∀ (pos : Positions) (c : Int), load pos slot = some c →
      load (runSaves saveInMemory pos slot lsns) slot = some (lsns.foldl max c) := by
  induction lsns with
  | nil => intro pos c h; simpa [runSaves] using h
  | cons a l ih =>
    intro pos c h
    have step := load_saveInMemory_some a h
    simpa [runSaves, List.foldl] using ih (saveInMemory pos slot a) (max c a) step

theorem load_runSaves_persistent {slot : String} (lsns : List Int) :
    ∀ (pos : Positions) (c : Int), load pos slot = some c →
      load (runSaves savePersistent pos slot lsns) slot = some (lsns.foldl max c) := by
  induction lsns with
  | nil => intro pos c h; simpa [runSaves] using h
  | cons a l ih =>
    intro pos c h
    have step := load_savePersistent_some a h
    simpa [runSaves, List.foldl] using ih (savePersistent pos slot a) (max c a) step

theorem foldl_max_mem (lsns : List Int) : ∀ c : Int, lsns.foldl max c ∈ c :: lsns := by
  induction lsns with
  | nil => intro c; simp
  | cons a l ih =>
    intro c
    have h := ih (max c a)
    rcases List.mem_cons.1 h with h' | h'
    · simp only [List.foldl]
      rw [h']
      rcases max_choice c a with hc | hc <;> rw [hc] <;> simp
    · simp only [List.foldl]
      simp [h']

theorem le_foldl_max (lsns : List Int) : ∀ c : Int, c ≤ lsns.foldl max c := by
  induction lsns with
  | nil => intro c; simp
  | cons a l ih =>
    intro c
    exact le_trans (le_max_left c a) (ih (max c a))

theorem mem_le_foldl_max {x : Int} (lsns : List Int) :
    ∀ c : Int, x ∈ lsns → x ≤ lsns.foldl max c := by
  induction lsns with
  | nil => intro c h; cases h
  | cons a l ih =>
    intro c h
    rcases List.mem_cons.1 h with h' | h'
    · subst h'
      exact le_trans (le_max_right c x) (le_foldl_max l (max c x))
    · exact ih (max c a) h'

/-- **C1** (spec §3 invariants, §8): for both checkpoint stores, a sequence
of `save(slot, lsn_i)` calls on a slot that starts unset leaves
`load(slot) = max(lsn_1..lsn_n)` (the loaded value is a member of the
sequence and an upper bound of it); and a `save` whose lsn is at most the
currently stored position leaves the positions entirely unchanged. -/
theorem checkpoint_monotonicity
    (pos : Positions) (slot : String) (l0 : Int) (lsns : List Int)
    (hfresh : load pos slot = none) :
    (∃ m, load (runSaves saveInMemory pos slot (l0 :: lsns)) slot = some m ∧
        m ∈ l0 :: lsns ∧ ∀ x ∈ l0 :: lsns, x ≤ m) ∧
    (∃ m, load (runSaves savePersistent pos slot (l0 :: lsns)) slot = some m ∧
        m ∈ l0 :: lsns ∧ ∀ x ∈ l0 :: lsns, x ≤ m) ∧
    (∀ (pos' : Positions) (c lsn : Int), load pos' slot = some c → lsn ≤ c →
        saveInMemory pos' slot lsn = pos' ∧ savePersistent pos' slot lsn = pos') := by
  refine ⟨⟨lsns.foldl max l0, ?_, ?_, ?_⟩, ⟨lsns.foldl max l0, ?_, ?_, ?_⟩, ?_⟩
  · have h0 := load_saveInMemory_none l0 hfresh
    have := load_runSaves_inMemory lsns (saveInMemory pos slot l0) l0 h0
    simpa [runSaves, List.foldl] using this
  · exact foldl_max_mem lsns l0
  · intro x hx
    rcases List.mem_cons.1 hx with h' | h'
    · subst h'; exact le_foldl_max lsns x
    · exact mem_le_foldl_max lsns l0 h'
  · have h0 := load_savePersistent_none l0 hfresh
    have := load_runSaves_persistent lsns (savePersistent pos slot l0) l0 h0
    simpa [runSaves, List.foldl] using this
  · exact foldl_max_mem lsns l0
  · intro x hx
    rcases List.mem_cons.1 hx with h' | h'
    · subst h'; exact le_foldl_max lsns x
    · exact mem_le_foldl_max lsns l0 h'
  · intro pos' c lsn hc hle
    constructor
    · unfold saveInMemory
      unfold load at hc
      rw [hc]
      have : ¬ lsn > c := by omega
      simp [this]
    · unfold savePersistent
      unfold load at hc
      rw [hc]
      simp [hle]

/-- Witness for `checkpoint_monotonicity` at a concrete store and sequence. -/
theorem checkpoint_monotonicity_witness :
    (Checkpoint.load [] "slot" = none) ∧
    ((∃ m, Checkpoint.load
          (Checkpoint.runSaves Checkpoint.saveInMemory [] "slot" [5, 9, 3]) "slot" = some m ∧
        m ∈ [5, 9, 3] ∧ ∀ x ∈ ([5, 9, 3] : List Int), x ≤ m) ∧
      (∃ m, Checkpoint.load
          (Checkpoint.runSaves Checkpoint.savePersistent [] "slot" [5, 9, 3]) "slot" = some m ∧
        m ∈ [5, 9, 3] ∧ ∀ x ∈ ([5, 9, 3] : List Int), x ≤ m) ∧
      (∀ (pos' : Checkpoint.Positions) (c lsn : Int),
          Checkpoint.load pos' "slot" = some c → lsn ≤ c →
            Checkpoint.saveInMemory pos' "slot" lsn = pos' ∧
            Checkpoint.savePersistent pos' "slot" lsn = pos')) :=
  ⟨rfl, checkpoint_monotonicity [] "slot" 5 [9, 3] rfl⟩

theorem resetInMemory_ok_iff (pos : Positions) (slot : String)
    (expected newLsn : Option Int) :
    (∃ p, resetInMemory pos slot expected newLsn false = .ok p) ↔
      (expected = load pos slot ∧
        ∀ c n, load pos slot = some c → newLsn = some n → n ≤ c) := by
  rcases hcur : dictGet slot pos with _ | c
  · rcases hnew : newLsn with _ | n
    · by_cases hexp : expected = none <;>
        simp [resetInMemory, hcur, hnew, hexp, load]
    · by_cases hexp : expected = none <;>
        simp [resetInMemory, hcur, hnew, hexp, load]
  · rcases hnew : newLsn with _ | n
    · by_cases hexp : expected = some c
      · have hne : ¬ expected = none := by simp [hexp]
        simp [resetInMemory, hcur, hnew, hexp, hne, load]
      · by_cases hne : expected = none <;>
          simp [resetInMemory, hcur, hnew, hexp, hne, load]
    · by_cases hexp : expected = some c
      · have hne : ¬ expected = none := by simp [hexp]
        by_cases hgt : n > c
        · have : ¬ n ≤ c := by omega
          simp [resetInMemory, hcur, hnew, hexp, hne, hgt, load, this]
        · have : n ≤ c := by omega
          simp [resetInMemory, hcur, hnew, hexp, hne, hgt, load, this]
      · by_cases hne : expected = none <;>
          simp [resetInMemory, hcur, hnew, hexp, hne, load]

theorem resetPersistent_ok_iff (pos : Positions) (slot : String)
    (expected newLsn : Option Int) :
    (∃ p, resetPersistent pos slot expected newLsn false = .ok p) ↔
      (expected = load pos slot ∧
        ∀ c n, load pos slot = some c → newLsn = some n → n ≤ c) := by
  rcases hcur : dictGet slot pos with _ | c
  · rcases hnew : newLsn with _ | n
    · by_cases hexp : expected = none <;>
        simp [resetPersistent, hcur, hnew, hexp, load]
    · by_cases hexp : expected = none <;>
        simp [resetPersistent, hcur, hnew, hexp, load]
  · rcases hnew : newLsn with _ | n
    · by_cases hexp : expected = some c
      · have hne : ¬ expected = none := by simp [hexp]
        simp [resetPersistent, hcur, hnew, hexp, hne, load]
      · by_cases hne : expected = none <;>
          simp [resetPersistent, hcur, hnew, hexp, hne, load]
    · by_cases hexp : expected = some c
      · have hne : ¬ expected = none := by simp [hexp]
        by_cases hgt : n > c
        · have : ¬ n ≤ c := by omega
          simp [resetPersistent, hcur, hnew, hexp, hne, hgt, load, this]
        · have : n ≤ c := by omega
          simp [resetPersistent, hcur, hnew, hexp, hne, hgt, load, this]
      · by_cases hne : expected = none <;>
          simp [resetPersistent, hcur, hnew, hexp, hne, load]

/-- **C8** (spec §4.4 checkpoint store contract): for both stores, `reset`
without `force` succeeds exactly when the supplied expected position equals
the currently stored one and any supplied new position does not exceed the
stored one; in every other case it returns the `ValueError` (and, since all
mutation happens after the precondition checks, the positions are
unchanged — an `.error` result carries no new state). -/
theorem checkpoint_reset_preconditions (pos : Positions) (slot : String)
    (expected newLsn : Option Int) :
    ((∃ p, resetInMemory pos slot expected newLsn false = .ok p) ↔
      (expected = load pos slot ∧
        ∀ c n, load pos slot = some c → newLsn = some n → n ≤ c)) ∧
    ((∃ p, resetPersistent pos slot expected newLsn false = .ok p) ↔
      (expected = load pos slot ∧
        ∀ c n, load pos slot = some c → newLsn = some n → n ≤ c)) :=
  ⟨resetInMemory_ok_iff pos slot expected newLsn,
   resetPersistent_ok_iff pos slot expected newLsn⟩

/-- Witness for `checkpoint_reset_preconditions`: with stored position 10,
a reset expecting 10 with new position 7 succeeds, and a reset expecting 9
fails. -/
theorem checkpoint_reset_preconditions_witness :
    (∃ p, Checkpoint.resetInMemory [("s", (10 : Int))] "s"
        (some 10) (some 7) false = .ok p) ∧
    ¬ (∃ p, Checkpoint.resetInMemory [("s", (10 : Int))] "s"
        (some 9) none false = .ok p) := by
  have h7 := (checkpoint_reset_preconditions [("s", (10 : Int))] "s"
      (some 10) (some 7)).1
  have h9 := (checkpoint_reset_preconditions [("s", (10 : Int))] "s"
      (some 9) none).1
  constructor
  · exact h7.mpr ⟨by decide, by
      intro c n hc hn
      injection hc with hc'
      injection hn with hn'
      omega⟩
  · intro hok
    have := (h9.mp hok).1
    revert this
    decide

end Checkpoint

/-! ## `cdc/diffing.py` — diff accumulator

`DiffEvent.changes` is a Python `dict`; we embed it as an association list
whose keys are distinct (hypotheses state the `Nodup` where needed).  The
value type is a parameter `α` standing for Python `object`. -/

namespace Diffing

structure DiffEvent (α : Type) where
  event_id : String
  uns_path : String
  version : Int
  actor : String
  changes : List (String × α)
  timestamp : String

structure AggregatedDiff (α : Type) where
  uns_path : String
  events : List (DiffEvent α)
  merged_changes : List (String × Int × α)

/-- One iteration of the loop in `AggregatedDiff.append`: write
`(version, value)` when the key is new or the incoming version is at least
the recorded one. -/
def mergeStep {α : Type} (version : Int) (m : List (String × Int × α))
    (kv : String × α) : List (String × Int × α) :=
  match dictGet kv.1 m with
  | none => dictSet kv.1 (version, kv.2) m
  | some cur => if version ≥ cur.1 then dictSet kv.1 (version, kv.2) m else m

/-- `AggregatedDiff.append`. -/
def AggregatedDiff.append {α : Type} (ad : AggregatedDiff α) (ev : DiffEvent α) :
    AggregatedDiff α :=
  { ad with
    events := ad.events ++ [ev]
    merged_changes := ev.changes.foldl (mergeStep ev.version) ad.merged_changes }

/-- The `changes` mapping of `AggregatedDiff.to_snapshot`:
`{key: value for key, (version, value) in merged_changes.items()}`. -/
def AggregatedDiff.snapshotChanges {α : Type} (ad : AggregatedDiff α) :
    List (String × α) :=
  ad.merged_changes.map (fun kv => (kv.1, kv.2.2))

structure DiffAccumulator (α : Type) where
  entries : List (String × AggregatedDiff α)
  seen : List String

def emptyAccumulator (α : Type) : DiffAccumulator α := ⟨[], []⟩

/-- `DiffAccumulator.apply`: deduplicate by `event_id`, then append into the
per-path entry (creating it when absent). -/
def DiffAccumulator.apply {α : Type} (acc : DiffAccumulator α) (ev : DiffEvent α) :
    Bool × DiffAccumulator α :=
  if ev.event_id ∈ acc.seen then (false, acc)
  else
    let entry :=
      match dictGet ev.uns_path acc.entries with
      | some e => e
      | none => { uns_path := ev.uns_path, events := [], merged_changes := [] }
    (true,
      { entries := dictSet ev.uns_path (entry.append ev) acc.entries
        seen := setAdd acc.seen ev.event_id })

theorem dictGet_snapshotChanges {α : Type} (k : String) (ad : AggregatedDiff α) :
    dictGet k ad.snapshotChanges = (dictGet k ad.merged_changes).map (fun v => v.2) := by
  unfold AggregatedDiff.snapshotChanges
  induction ad.merged_changes with
  | nil => simp [dictGet]
  | cons hd tl ih =>
    obtain ⟨k', v⟩ := hd
    by_cases h : k = k' <;> simp [dictGet, h, ih]

theorem dictGet_foldl_mergeStep_not_mem {α : Type} {k : String} (ver : Int) :
    ∀ (cs : List (String × α)) (m : List (String × Int × α)),
      k ∉ cs.map Prod.fst →
      dictGet k (cs.foldl (mergeStep ver) m) = dictGet k m := by
  intro cs
  induction cs with
  | nil => intro m _; simp
  | cons hd tl ih =>
    intro m hk
    obtain ⟨k', v'⟩ := hd
    simp only [List.map, List.mem_cons] at hk
    push_neg at hk
    have hne : k ≠ k' := hk.1
    have step : dictGet k (mergeStep ver m (k', v')) = dictGet k m := by
      unfold mergeStep
      rcases dictGet k' m with _ | cur
      · exact dictGet_dictSet_ne _ m hne
      · dsimp only
        split
        · exact dictGet_dictSet_ne _ m hne
        · rfl
    simp only [List.foldl]
    rw [ih (mergeStep ver m (k', v')) hk.2, step]

theorem dictGet_foldl_mergeStep_mem {α : Type} {k : String} {v : α} (ver : Int) :
    ∀ (cs : List (String × α)) (m : List (String × Int × α)),
      (cs.map Prod.fst).Nodup → (k, v) ∈ cs →
      dictGet k (cs.foldl (mergeStep ver) m) =
        match dictGet k m with
        | none => some (ver, v)
        | some cur => if ver ≥ cur.1 then some (ver, v) else some cur := by
  intro cs
  induction cs with
  | nil => intro m _ hmem; cases hmem
  | cons hd tl ih =>
    intro m hnd hmem
    obtain ⟨k', v'⟩ := hd
    simp only [List.map, List.nodup_cons] at hnd
    rcases List.mem_cons.1 hmem with heq | hmem'
    · injection heq with hk hv
      subst hk
      subst hv
      have hnotin : k ∉ tl.map Prod.fst := hnd.1
      simp only [List.foldl]
      rw [dictGet_foldl_mergeStep_not_mem ver tl _ hnotin]
      unfold mergeStep
      rcases hm : dictGet k m with _ | cur
      · dsimp only
        rw [dictGet_dictSet_self]
      · dsimp only
        split
        · rw [dictGet_dictSet_self]
        · exact hm
    · have hk' : k ≠ k' := by
        intro h
        subst h
        exact hnd.1 (List.mem_map.2 ⟨(k, v), hmem', rfl⟩)
      have step : dictGet k (mergeStep ver m (k', v')) = dictGet k m := by
        unfold mergeStep
        rcases dictGet k' m with _ | cur
        · exact dictGet_dictSet_ne _ m hk'
        · dsimp only
          split
          · exact dictGet_dictSet_ne _ m hk'
          · rfl
      simp only [List.foldl]
      rw [ih (mergeStep ver m (k', v')) hnd.2 hmem', step]

/-- **C2 counterexample**: two events with distinct ids, the same path, the
same key and *equal* versions.  The merged snapshot holds the value of the
*second* event (20), not the first-applied one (10) as the claim states. -/
theorem diff_merge_tie_counterexample :
    (let e1 : DiffEvent Int := ⟨"evt-a", "p", 1, "x", [("k", 10)], "t1"⟩
     let e2 : DiffEvent Int := ⟨"evt-b", "p", 1, "y", [("k", 20)], "t2"⟩
     let acc := (((emptyAccumulator Int).apply e1).2.apply e2).2
     match dictGet "p" acc.entries with
     | some ad => dictGet "k" ad.snapshotChanges
     | none => none) = some 20 ∧
    ¬ ((let e1 : DiffEvent Int := ⟨"evt-a", "p", 1, "x", [("k", 10)], "t1"⟩
        let e2 : DiffEvent Int := ⟨"evt-b", "p", 1, "y", [("k", 20)], "t2"⟩
        let acc := (((emptyAccumulator Int).apply e1).2.apply e2).2
        match dictGet "p" acc.entries with
        | some ad => dictGet "k" ad.snapshotChanges
        | none => none) = some 10) := by
  refine ⟨rfl, ?_⟩
  intro h
  rw [show (let e1 : DiffEvent Int := ⟨"evt-a", "p", 1, "x", [("k", 10)], "t1"⟩
      let e2 : DiffEvent Int := ⟨"evt-b", "p", 1, "y", [("k", 20)], "t2"⟩
      let acc := (((emptyAccumulator Int).apply e1).2.apply e2).2
      match dictGet "p" acc.entries with
      | some ad => dictGet "k" ad.snapshotChanges
      | none => none) = some 20 from rfl] at h
  injection h with h'
  omega

/-- **C2 amended** (spec §4.4.3): applying two events with distinct
`event_id`s to the same `uns_path`, both containing the key `k`, leaves in
the snapshot's merged `changes` the value of the event with the higher
`version`; on *equal* versions the value of the **last-applied** event is
kept (the source compares `event.version >= current[0]`). -/
theorem diff_merge_last_write_wins {α : Type} (e1 e2 : DiffEvent α) (k : String)
    (v1 v2 : α)
    (hid : e1.event_id ≠ e2.event_id)
    (hpath : e2.uns_path = e1.uns_path)
    (h1 : (k, v1) ∈ e1.changes) (h2 : (k, v2) ∈ e2.changes)
    (hn1 : (e1.changes.map Prod.fst).Nodup)
    (hn2 : (e2.changes.map Prod.fst).Nodup) :
    ∃ ad, dictGet e1.uns_path (((emptyAccumulator α).apply e1).2.apply e2).2.entries
        = some ad ∧
      dictGet k ad.snapshotChanges =
        some (if e1.version ≤ e2.version then v2 else v1) := by
  have hacc1 : ((emptyAccumulator α).apply e1).2 =
      { entries := [(e1.uns_path, AggregatedDiff.append ⟨e1.uns_path, [], []⟩ e1)]
        seen := [e1.event_id] } := by
    unfold DiffAccumulator.apply
    simp [emptyAccumulator, setAdd, dictGet, dictSet]
  have hns : e2.event_id ∉ [e1.event_id] := by
    intro h
    rcases List.mem_singleton.1 h with h'
    exact hid h'.symm
  have happ2 : ((DiffAccumulator.mk
        [(e1.uns_path, AggregatedDiff.append ⟨e1.uns_path, [], []⟩ e1)]
        [e1.event_id]).apply e2).2 =
      DiffAccumulator.mk
        (dictSet e2.uns_path
          ((AggregatedDiff.append ⟨e1.uns_path, [], []⟩ e1).append e2)
          [(e1.uns_path, AggregatedDiff.append ⟨e1.uns_path, [], []⟩ e1)])
        (setAdd [e1.event_id] e2.event_id) := by
    unfold DiffAccumulator.apply
    rw [if_neg hns, hpath]
    simp [dictGet]
  -- merged changes after the first event
  have hm1 : dictGet k (AggregatedDiff.append ⟨e1.uns_path, [], []⟩ e1).merged_changes
      = some (e1.version, v1) := by
    unfold AggregatedDiff.append
    dsimp only
    rw [dictGet_foldl_mergeStep_mem e1.version e1.changes [] hn1 h1]
    rfl
  refine ⟨(AggregatedDiff.append (AggregatedDiff.append ⟨e1.uns_path, [], []⟩ e1) e2),
    ?_, ?_⟩
  · rw [hacc1, happ2]
    dsimp only
    rw [hpath]
    exact dictGet_dictSet_self _ _ _
  · rw [dictGet_snapshotChanges]
    show (dictGet k (AggregatedDiff.append _ e2).merged_changes).map _ = _
    unfold AggregatedDiff.append
    dsimp only
    rw [dictGet_foldl_mergeStep_mem e2.version e2.changes _ hn2 h2]
    unfold AggregatedDiff.append at hm1
    dsimp only at hm1
    rw [hm1]
    by_cases hver : e1.version ≤ e2.version
    · have hge : e2.version ≥ e1.version := hver
      simp [hge, hver]
    · have hge : ¬ e2.version ≥ e1.version := hver
      simp [hge, hver]

/-- Witness for `diff_merge_last_write_wins` at concrete events with
versions 3 and 5. -/
theorem diff_merge_last_write_wins_witness :
    ∃ ad, dictGet "p"
        ((((emptyAccumulator Int).apply ⟨"a", "p", 3, "x", [("k", 10)], "t"⟩).2.apply
            ⟨"b", "p", 5, "y", [("k", 20)], "u"⟩).2).entries = some ad ∧
      dictGet "k" ad.snapshotChanges = some (if (3 : Int) ≤ 5 then 20 else 10) := by
  exact diff_merge_last_write_wins (α := Int)
    ⟨"a", "p", 3, "x", [("k", 10)], "t"⟩ ⟨"b", "p", 5, "y", [("k", 20)], "u"⟩
    "k" 10 20 (by decide) rfl (by simp) (by simp) (by simp) (by simp)

end Diffing

/-! ## `cdc/debounce.py` — debounce buffer

Time values (`first_seen`, `last_update`, timestamps, the window) are
Python floats used only for comparison and subtraction; they are embedded
as rationals.  `DebounceMetrics` records counters and gauges only and never
feeds back into buffer state, so it is not modelled.  The value type of
`payload`/`extras` dicts is a parameter `α`. -/

namespace Debounce

structure DebounceEntry (α : Type) where
  metric_key : String
  first_seen : ℚ
  last_update : ℚ
  payload : List (String × α)
  version : Option Int
  actor : Option String
  event_ids : List String
  extras : List (String × α)

/-- `DebounceEntry.merge`.  Optional arguments mirror the keyword-only
parameters; Python truthiness (`if actor:` / `if event_id:` / `if extras:`)
is the non-empty check on the unwrapped value. -/
def DebounceEntry.merge {α : Type} (e : DebounceEntry α) (diff : List (String × α))
    (version : Option Int) (actor : Option String) (event_id : Option String)
    (timestamp : Option ℚ) (extras : Option (List (String × α))) :
    DebounceEntry α :=
  let payload' := diff.foldl (fun p kv => dictSet kv.1 kv.2 p) e.payload
  let version' :=
    match version with
    | none => e.version
    | some v =>
      match e.version with
      | none => some v
      | some sv => if v ≥ sv then some v else e.version
  let actor' :=
    match actor with
    | some a => if a = "" then e.actor else some a
    | none => e.actor
  let event_ids' :=
    match event_id with
    | some eid => if eid = "" then e.event_ids else setAdd e.event_ids eid
    | none => e.event_ids
  let last' :=
    match timestamp with
    | some t => t
    | none => e.last_update
  let extras' :=
    match extras with
    | some ex =>
      match ex with
      | [] => e.extras
      | _ => ex.foldl (fun p kv => dictSet kv.1 kv.2 p) e.extras
    | none => e.extras
  { e with
    payload := payload'
    version := version'
    actor := actor'
    event_ids := event_ids'
    last_update := last'
    extras := extras' }

structure DebounceBuffer (α : Type) where
  window_seconds : ℚ
  max_entries : Nat
  entries : List (String × DebounceEntry α)
  sequence : List String

/-- `min(self._entries.values(), key=lambda entry: entry.last_update)`
followed by `.metric_key`: Python `min` keeps the first of equal minima. -/
def minKeyByLastUpdate {α : Type} (entries : List (String × DebounceEntry α)) :
    Option String :=
  match entries with
  | [] => none
  | kv :: rest =>
    some ((rest.foldl
      (fun best x => if x.2.last_update < best.2.last_update then x else best)
      kv).2.metric_key)

/-- `DebounceBuffer._enforce_cap`, fuelled: each loop iteration removes one
entry, so `entries.length` steps suffice. -/
def enforceCap {α : Type} : Nat → DebounceBuffer α → DebounceBuffer α
  | 0, b => b
  | fuel + 1, b =>
    if b.entries.length > b.max_entries then
      match minKeyByLastUpdate b.entries with
      | none => b
      | some oldest =>
        enforceCap fuel
          { b with
            entries := dictPop oldest b.entries
            sequence := b.sequence.erase oldest }
    else b

/-- `DebounceBuffer.add`.  `clock` is the value `self._clock()` would
return, used only when no explicit timestamp is supplied. -/
def DebounceBuffer.add {α : Type} (b : DebounceBuffer α) (clock : ℚ)
    (metric_key : String) (diff : List (String × α)) (version : Option Int)
    (actor : Option String) (event_id : Option String) (timestamp : Option ℚ)
    (extras : Option (List (String × α))) : DebounceBuffer α :=
  let now := match timestamp with | some t => t | none => clock
  let st :=
    match dictGet metric_key b.entries with
    | some e => (e, b.entries, b.sequence)
    | none =>
      let e : DebounceEntry α := ⟨metric_key, now, now, [], none, none, [], []⟩
      (e, dictSet metric_key e b.entries, b.sequence ++ [metric_key])
  let merged := st.1.merge diff version actor event_id (some now) extras
  enforceCap (dictSet metric_key merged st.2.1).length
    { b with
      entries := dictSet metric_key merged st.2.1
      sequence := st.2.2 }

theorem enforceCap_of_le {α : Type} (fuel : Nat) (b : DebounceBuffer α)
    (h : ¬ b.entries.length > b.max_entries) : enforceCap fuel b = b := by
  cases fuel with
  | zero => rfl
  | succ f => simp [enforceCap, h]

/-- **C3 counterexample**: an entry whose `last_update` is 10 receives an
`add` with explicit timestamp 5; afterwards `last_update` is 5, not
`max 10 5 = 10` as the claim states (the source overwrites
`self.last_update = timestamp`). -/
theorem debounce_add_timestamp_counterexample :
    (let E : DebounceEntry Int := ⟨"m", 10, 10, [], some 1, none, [], []⟩
     let b : DebounceBuffer Int := ⟨60, 10, [("m", E)], ["m"]⟩
     let b' := b.add 0 "m" [] (some 2) none (some "e1") (some 5) none
     match dictGet "m" b'.entries with
     | some e => e.last_update
     | none => 0) = 5 ∧
    ¬ ((5 : ℚ) = max 10 5) := by
  constructor
  · rfl
  · decide

/-- **C3 amended** (spec §4.4.4): `DebounceBuffer.add` on a key that already
has an entry, with an explicit timestamp and version, leaves the entry with
`last_update` equal to the **supplied timestamp** (an overwrite, not a max),
`version = max(previous, supplied)`, the diff keys merged last-write-wins
into the payload, and the event id added to the entry's event-id set. -/
theorem debounce_add_merges {α : Type} (b : DebounceBuffer α) (clock : ℚ)
    (key : String) (E : DebounceEntry α) (diff : List (String × α))
    (v pv : Int) (act : Option String) (eid : String) (ts : ℚ)
    (ex : Option (List (String × α)))
    (hE : dictGet key b.entries = some E)
    (hcap : ¬ b.entries.length > b.max_entries)
    (hpv : E.version = some pv)
    (heid : eid ≠ "")
    (hnd : (diff.map Prod.fst).Nodup) :
    ∃ E', dictGet key (b.add clock key diff (some v) act (some eid) (some ts) ex).entries
        = some E' ∧
      E'.last_update = ts ∧
      E'.version = some (max pv v) ∧
      (∀ k w, (k, w) ∈ diff → dictGet k E'.payload = some w) ∧
      (∀ k, k ∉ diff.map Prod.fst → dictGet k E'.payload = dictGet k E.payload) ∧
      eid ∈ E'.event_ids := by
  unfold DebounceBuffer.add
  rw [hE]
  dsimp only
  have hlen : (dictSet key (E.merge diff (some v) act (some eid) (some ts) ex) b.entries).length
      = b.entries.length :=
    length_dictSet_of_get _ b.entries hE
  rw [enforceCap_of_le]
  · dsimp only
    refine ⟨E.merge diff (some v) act (some eid) (some ts) ex,
      dictGet_dictSet_self _ _ _, ?_, ?_, ?_, ?_, ?_⟩
    · rfl
    · unfold DebounceEntry.merge
      dsimp only
      rw [hpv]
      by_cases hge : v ≥ pv
      · simp only [hge, if_true]
        congr 1
        omega
      · simp only [hge, if_false, hpv]
        congr 1
        omega
    · intro k w hmem
      unfold DebounceEntry.merge
      dsimp only
      exact dictGet_foldl_dictSet_mem diff E.payload hnd hmem
    · intro k hk
      unfold DebounceEntry.merge
      dsimp only
      exact dictGet_foldl_dictSet_not_mem diff E.payload hk
    · unfold DebounceEntry.merge
      dsimp only
      simp only [heid, if_false]
      unfold setAdd
      by_cases hmem : eid ∈ E.event_ids
      · simp [hmem]
      · simp [hmem]
  · dsimp only
    rw [hlen]
    exact hcap

/-- Witness for `debounce_add_merges` at a concrete buffer and add. -/
theorem debounce_add_merges_witness :
    ∃ E', dictGet "m"
        ((⟨60, 10, [("m", ⟨"m", 1, 1, [("a", (7 : Int))], some 3, none, [], []⟩)],
            ["m"]⟩ : DebounceBuffer Int).add 0 "m" [("a", 8)]
          (some 5) none (some "e2") (some 4) none).entries = some E' ∧
      E'.last_update = 4 ∧
      E'.version = some (max 3 5) ∧
      (∀ k w, (k, w) ∈ [("a", (8 : Int))] → dictGet k E'.payload = some w) ∧
      (∀ k, k ∉ ["a"].map id → dictGet k E'.payload =
        dictGet k [("a", (7 : Int))]) ∧
      "e2" ∈ E'.event_ids := by
  have h := debounce_add_merges (α := Int)
    ⟨60, 10, [("m", ⟨"m", 1, 1, [("a", (7 : Int))], some 3, none, [], []⟩)], ["m"]⟩
    0 "m" ⟨"m", 1, 1, [("a", (7 : Int))], some 3, none, [], []⟩ [("a", 8)]
    5 3 none "e2" 4 none rfl (by decide) rfl (by decide) (by simp)
  obtain ⟨E', h1, h2, h3, h4, h5, h6⟩ := h
  exact ⟨E', h1, h2, h3, h4, by simpa using h5, h6⟩

end Debounce

/-! ## `db/repository.py` — property typing and bulk upserts

`MetricPropertyPayload.value` is `Any`; we embed the Python values that can
reach `_property_column_values` as the variant `PyVal` (`None`, `int`,
`float`, `str`, `bool`).  The numeric coercions model CPython: `int()`
truncates floats toward zero and parses decimal strings (raising
`ValueError` otherwise, embedded as `.error`), `float()` parses the common
`[-]digits[.digits]` string forms, `str()` renders, `bool()` is
truthiness. -/

namespace Repo

inductive PyVal where
  | none
  | int (i : Int)
  | float (q : ℚ)
  | str (s : String)
  | bool (b : Bool)
deriving DecidableEq

/-- Python `float(<str>)` for the plain `[-]digits[.digits]` forms. -/
def parseDecimal (s : String) : Option ℚ :=
  let body (t : String) : Option ℚ :=
    match t.splitOn "." with
    | [a] => (a.toNat?).map (fun n => (n : ℚ))
    | [a, b] =>
      match a.toNat?, b.toNat? with
      | some n, some f => some ((n : ℚ) + (f : ℚ) / ((10 : ℚ) ^ b.length))
      | _, _ => Option.none
    | _ => Option.none
  if s.startsWith "-" then (body (s.drop 1)).map (fun q => -q) else body s

/-- Python `int(value)`; `.error` stands for the `ValueError`/`TypeError`
the interpreter would raise. -/
def pyToInt : PyVal → Except String Int
  | .int i => .ok i
  | .float q => .ok (q.num.tdiv q.den)
  | .bool b => .ok (if b then 1 else 0)
  | .str s =>
    match s.toInt? with
    | some i => .ok i
    | Option.none => .error "ValueError"
  | .none => .error "TypeError"

/-- Python `float(value)`. -/
def pyToFloat : PyVal → Except String ℚ
  | .int i => .ok (i : ℚ)
  | .float q => .ok q
  | .bool b => .ok (if b then 1 else 0)
  | .str s =>
    match parseDecimal s with
    | some q => .ok q
    | Option.none => .error "ValueError"
  | .none => .error "TypeError"

/-- Python `str(value)` (the rational rendering of floats differs from
CPython's repr, which no claim depends on). -/
def pyToStr : PyVal → String
  | .int i => toString i
  | .float q => toString q
  | .bool b => if b then "True" else "False"
  | .str s => s
  | .none => "None"

/-- Python `bool(value)` truthiness. -/
def pyToBool : PyVal → Bool
  | .int i => decide (i ≠ 0)
  | .float q => decide (q ≠ 0)
  | .str s => decide (s ≠ "")
  | .bool b => b
  | .none => false

structure MetricPropertyPayload where
  metric_id : Int
  key : String
  type : String
  value : PyVal
deriving DecidableEq

structure MetricPayload where
  device_id : Int
  name : String
  uns_path : String
  datatype : String
deriving DecidableEq

/-- The six `value_*` columns of a `metric_properties` row. -/
structure PropertyColumns where
  value_int : Option Int
  value_long : Option Int
  value_float : Option ℚ
  value_double : Option ℚ
  value_string : Option String
  value_bool : Option Bool
deriving DecidableEq

def emptyColumns : PropertyColumns := ⟨Option.none, Option.none, Option.none, Option.none, Option.none, Option.none⟩

/-- `MetadataRepository._property_column_values`: reject unknown types with
`RepositoryError`, else coerce into the single column matching `type`
(`None` values stay `NULL`). -/
def property_column_values (p : MetricPropertyPayload) :
    Except String PropertyColumns :=
  if ¬ (p.type = "int" ∨ p.type = "long" ∨ p.type = "float" ∨ p.type = "double"
      ∨ p.type = "string" ∨ p.type = "boolean") then
    .error ("invalid property type: " ++ p.type)
  else if p.type = "int" then
    match p.value with
    | .none => .ok emptyColumns
    | v => (pyToInt v).map (fun i => { emptyColumns with value_int := some i })
  else if p.type = "long" then
    match p.value with
    | .none => .ok emptyColumns
    | v => (pyToInt v).map (fun i => { emptyColumns with value_long := some i })
  else if p.type = "float" then
    match p.value with
    | .none => .ok emptyColumns
    | v => (pyToFloat v).map (fun q => { emptyColumns with value_float := some q })
  else if p.type = "double" then
    match p.value with
    | .none => .ok emptyColumns
    | v => (pyToFloat v).map (fun q => { emptyColumns with value_double := some q })
  else if p.type = "string" then
    match p.value with
    | .none => .ok emptyColumns
    | v => .ok { emptyColumns with value_string := some (pyToStr v) }
  else
    match p.value with
    | .none => .ok emptyColumns
    | v => .ok { emptyColumns with value_bool := some (pyToBool v) }

/-- Number of non-NULL `value_*` columns in a row. -/
def nonNullCount (c : PropertyColumns) : Nat :=
  (if c.value_int.isSome then 1 else 0) + (if c.value_long.isSome then 1 else 0)
    + (if c.value_float.isSome then 1 else 0)
    + (if c.value_double.isSome then 1 else 0)
    + (if c.value_string.isSome then 1 else 0)
    + (if c.value_bool.isSome then 1 else 0)

/-- **C4 counterexample**: the valid payload `(type="string", value=None)`
produces a row with *zero* non-null `value_*` columns, refuting "exactly
one non-null value column" for every payload (`_property_column_values`
maps a `None` value to `NULL` in the typed column as well). -/
theorem property_exactly_one_counterexample :
    property_column_values ⟨1, "k", "string", PyVal.none⟩ = .ok emptyColumns ∧
    nonNullCount emptyColumns = 0 ∧ ¬ (nonNullCount emptyColumns = 1) := by
  refine ⟨rfl, rfl, by decide⟩

/-- **C4 amended** (spec §4.2 property typing): a type outside
`{int,long,float,double,string,boolean}` makes `_property_column_values`
fail with the invalid-property-type `RepositoryError` (so nothing is
written); for an accepted type every successfully computed row has all
`value_*` columns `NULL` except possibly the one matching the declared
type, which is non-null exactly when the payload's value is not `None`. -/
theorem property_column_typing (p : MetricPropertyPayload) :
    (¬ (p.type = "int" ∨ p.type = "long" ∨ p.type = "float" ∨ p.type = "double"
        ∨ p.type = "string" ∨ p.type = "boolean") →
      property_column_values p = .error ("invalid property type: " ++ p.type)) ∧
    (∀ c, property_column_values p = .ok c →
      nonNullCount c = (if p.value = PyVal.none then 0 else 1) ∧
      (¬ p.type = "int" → c.value_int = Option.none) ∧
      (¬ p.type = "long" → c.value_long = Option.none) ∧
      (¬ p.type = "float" → c.value_float = Option.none) ∧
      (¬ p.type = "double" → c.value_double = Option.none) ∧
      (¬ p.type = "string" → c.value_string = Option.none) ∧
      (¬ p.type = "boolean" → c.value_bool = Option.none)) := by
  constructor
  · intro hbad
    unfold property_column_values
    rw [if_pos hbad]
  · intro c hc
    unfold property_column_values at hc
    by_cases hallowed : p.type = "int" ∨ p.type = "long" ∨ p.type = "float"
        ∨ p.type = "double" ∨ p.type = "string" ∨ p.type = "boolean"
    case neg =>
      rw [if_pos hallowed] at hc
      cases hc
    rw [if_neg (not_not_intro hallowed)] at hc
    by_cases h1 : p.type = "int"
    · rw [if_pos h1] at hc
      rcases hv : p.value with _ | i | q | s | b
      · rw [hv] at hc
        dsimp only at hc
        cases hc
        refine ⟨by simp [hv, nonNullCount, emptyColumns], ?_, ?_, ?_, ?_, ?_, ?_⟩ <;>
          intro hne <;> first | rfl | exact absurd (by assumption) hne
      · rw [hv] at hc
        dsimp only at hc
        rw [show pyToInt (PyVal.int i) = Except.ok _ from rfl] at hc
        simp only [Except.map] at hc
        cases hc
        refine ⟨by simp [hv, nonNullCount, emptyColumns], ?_, ?_, ?_, ?_, ?_, ?_⟩ <;>
          intro hne <;> first | rfl | exact absurd (by assumption) hne
      · rw [hv] at hc
        dsimp only at hc
        rw [show pyToInt (PyVal.float q) = Except.ok _ from rfl] at hc
        simp only [Except.map] at hc
        cases hc
        refine ⟨by simp [hv, nonNullCount, emptyColumns], ?_, ?_, ?_, ?_, ?_, ?_⟩ <;>
          intro hne <;> first | rfl | exact absurd (by assumption) hne
      · rw [hv] at hc
        dsimp only at hc
        rcases hsi : s.toInt? with _ | i
        · rw [show pyToInt (PyVal.str s) = Except.error "ValueError" by
            simp [pyToInt, hsi]] at hc
          simp [Except.map] at hc
        · rw [show pyToInt (PyVal.str s) = Except.ok i by
            simp [pyToInt, hsi]] at hc
          simp only [Except.map] at hc
          cases hc
          refine ⟨by simp [hv, nonNullCount, emptyColumns], ?_, ?_, ?_, ?_, ?_, ?_⟩ <;>
          intro hne <;> first | rfl | exact absurd (by assumption) hne
      · rw [hv] at hc
        dsimp only at hc
        rw [show pyToInt (PyVal.bool b) = Except.ok _ from rfl] at hc
        simp only [Except.map] at hc
        cases hc
        refine ⟨by simp [hv, nonNullCount, emptyColumns], ?_, ?_, ?_, ?_, ?_, ?_⟩ <;>
          intro hne <;> first | rfl | exact absurd (by assumption) hne
    rw [if_neg h1] at hc
    by_cases h2 : p.type = "long"
    · rw [if_pos h2] at hc
      rcases hv : p.value with _ | i | q | s | b
      · rw [hv] at hc
        dsimp only at hc
        cases hc
        refine ⟨by simp [hv, nonNullCount, emptyColumns], ?_, ?_, ?_, ?_, ?_, ?_⟩ <;>
          intro hne <;> first | rfl | exact absurd (by assumption) hne
      · rw [hv] at hc
        dsimp only at hc
        rw [show pyToInt (PyVal.int i) = Except.ok _ from rfl] at hc
        simp only [Except.map] at hc
        cases hc
        refine ⟨by simp [hv, nonNullCount, emptyColumns], ?_, ?_, ?_, ?_, ?_, ?_⟩ <;>
          intro hne <;> first | rfl | exact absurd (by assumption) hne
      · rw [hv] at hc
        dsimp only at hc
        rw [show pyToInt (PyVal.float q) = Except.ok _ from rfl] at hc
        simp only [Except.map] at hc
        cases hc
        refine ⟨by simp [hv, nonNullCount, emptyColumns], ?_, ?_, ?_, ?_, ?_, ?_⟩ <;>
          intro hne <;> first | rfl | exact absurd (by assumption) hne
      · rw [hv] at hc
        dsimp only at hc
        rcases hsi : s.toInt? with _ | i
        · rw [show pyToInt (PyVal.str s) = Except.error "ValueError" by
            simp [pyToInt, hsi]] at hc
          simp [Except.map] at hc
        · rw [show pyToInt (PyVal.str s) = Except.ok i by
            simp [pyToInt, hsi]] at hc
          simp only [Except.map] at hc
          cases hc
          refine ⟨by simp [hv, nonNullCount, emptyColumns], ?_, ?_, ?_, ?_, ?_, ?_⟩ <;>
          intro hne <;> first | rfl | exact absurd (by assumption) hne
      · rw [hv] at hc
        dsimp only at hc
        rw [show pyToInt (PyVal.bool b) = Except.ok _ from rfl] at hc
        simp only [Except.map] at hc
        cases hc
        refine ⟨by simp [hv, nonNullCount, emptyColumns], ?_, ?_, ?_, ?_, ?_, ?_⟩ <;>
          intro hne <;> first | rfl | exact absurd (by assumption) hne
    rw [if_neg h2] at hc
    by_cases h3 : p.type = "float"
    · rw [if_pos h3] at hc
      rcases hv : p.value with _ | i | q | s | b
      · rw [hv] at hc
        dsimp only at hc
        cases hc
        refine ⟨by simp [hv, nonNullCount, emptyColumns], ?_, ?_, ?_, ?_, ?_, ?_⟩ <;>
          intro hne <;> first | rfl | exact absurd (by assumption) hne
      · rw [hv] at hc
        dsimp only at hc
        rw [show pyToFloat (PyVal.int i) = Except.ok _ from rfl] at hc
        simp only [Except.map] at hc
        cases hc
        refine ⟨by simp [hv, nonNullCount, emptyColumns], ?_, ?_, ?_, ?_, ?_, ?_⟩ <;>
          intro hne <;> first | rfl | exact absurd (by assumption) hne
      · rw [hv] at hc
        dsimp only at hc
        rw [show pyToFloat (PyVal.float q) = Except.ok _ from rfl] at hc
        simp only [Except.map] at hc
        cases hc
        refine ⟨by simp [hv, nonNullCount, emptyColumns], ?_, ?_, ?_, ?_, ?_, ?_⟩ <;>
          intro hne <;> first | rfl | exact absurd (by assumption) hne
      · rw [hv] at hc
        dsimp only at hc
        rcases hsi : parseDecimal s with _ | i
        · rw [show pyToFloat (PyVal.str s) = Except.error "ValueError" by
            simp [pyToFloat, hsi]] at hc
          simp [Except.map] at hc
        · rw [show pyToFloat (PyVal.str s) = Except.ok i by
            simp [pyToFloat, hsi]] at hc
          simp only [Except.map] at hc
          cases hc
          refine ⟨by simp [hv, nonNullCount, emptyColumns], ?_, ?_, ?_, ?_, ?_, ?_⟩ <;>
          intro hne <;> first | rfl | exact absurd (by assumption) hne
      · rw [hv] at hc
        dsimp only at hc
        rw [show pyToFloat (PyVal.bool b) = Except.ok _ from rfl] at hc
        simp only [Except.map] at hc
        cases hc
        refine ⟨by simp [hv, nonNullCount, emptyColumns], ?_, ?_, ?_, ?_, ?_, ?_⟩ <;>
          intro hne <;> first | rfl | exact absurd (by assumption) hne
    rw [if_neg h3] at hc
    by_cases h4 : p.type = "double"
    · rw [if_pos h4] at hc
      rcases hv : p.value with _ | i | q | s | b
      · rw [hv] at hc
        dsimp only at hc
        cases hc
        refine ⟨by simp [hv, nonNullCount, emptyColumns], ?_, ?_, ?_, ?_, ?_, ?_⟩ <;>
          intro hne <;> first | rfl | exact absurd (by assumption) hne
      · rw [hv] at hc
        dsimp only at hc
        rw [show pyToFloat (PyVal.int i) = Except.ok _ from rfl] at hc
        simp only [Except.map] at hc
        cases hc
        refine ⟨by simp [hv, nonNullCount, emptyColumns], ?_, ?_, ?_, ?_, ?_, ?_⟩ <;>
          intro hne <;> first | rfl | exact absurd (by assumption) hne
      · rw [hv] at hc
        dsimp only at hc
        rw [show pyToFloat (PyVal.float q) = Except.ok _ from rfl] at hc
        simp only [Except.map] at hc
        cases hc
        refine ⟨by simp [hv, nonNullCount, emptyColumns], ?_, ?_, ?_, ?_, ?_, ?_⟩ <;>
          intro hne <;> first | rfl | exact absurd (by assumption) hne
      · rw [hv] at hc
        dsimp only at hc
        rcases hsi : parseDecimal s with _ | i
        · rw [show pyToFloat (PyVal.str s) = Except.error "ValueError" by
            simp [pyToFloat, hsi]] at hc
          simp [Except.map] at hc
        · rw [show pyToFloat (PyVal.str s) = Except.ok i by
            simp [pyToFloat, hsi]] at hc
          simp only [Except.map] at hc
          cases hc
          refine ⟨by simp [hv, nonNullCount, emptyColumns], ?_, ?_, ?_, ?_, ?_, ?_⟩ <;>
          intro hne <;> first | rfl | exact absurd (by assumption) hne
      · rw [hv] at hc
        dsimp only at hc
        rw [show pyToFloat (PyVal.bool b) = Except.ok _ from rfl] at hc
        simp only [Except.map] at hc
        cases hc
        refine ⟨by simp [hv, nonNullCount, emptyColumns], ?_, ?_, ?_, ?_, ?_, ?_⟩ <;>
          intro hne <;> first | rfl | exact absurd (by assumption) hne
    rw [if_neg h4] at hc
    by_cases h5 : p.type = "string"
    · rw [if_pos h5] at hc
      rcases hv : p.value with _ | i | q | s | b <;> rw [hv] at hc <;> cases hc <;>
        refine ⟨by simp [hv, nonNullCount, emptyColumns], ?_, ?_, ?_, ?_, ?_, ?_⟩ <;>
        intro hne <;> first | rfl | exact absurd (by assumption) hne
    rw [if_neg h5] at hc
    have h6 : p.type = "boolean" := by tauto
    rcases hv : p.value with _ | i | q | s | b <;> rw [hv] at hc <;> cases hc <;>
      refine ⟨by simp [hv, nonNullCount, emptyColumns], ?_, ?_, ?_, ?_, ?_, ?_⟩ <;>
      intro hne <;> first | rfl | exact absurd (by assumption) hne

/-- Witness for `property_column_typing`: an `int` payload with value 5
yields exactly the `value_int` column; type `decimal` is rejected. -/
theorem property_column_typing_witness :
    property_column_values ⟨1, "k", "int", PyVal.int 5⟩ =
      .ok { emptyColumns with value_int := some 5 } ∧
    nonNullCount { emptyColumns with value_int := some 5 } = 1 ∧
    property_column_values ⟨1, "k", "decimal", PyVal.int 5⟩ =
      .error "invalid property type: decimal" := by
  refine ⟨rfl, ?_, ?_⟩
  · have h := (property_column_typing ⟨1, "k", "int", PyVal.int 5⟩).2
      { emptyColumns with value_int := some 5 } rfl
    simpa using h.1
  · exact (property_column_typing ⟨1, "k", "decimal", PyVal.int 5⟩).1 (by decide)

/-! ### Bulk upserts (`upsert_metrics_bulk`, `upsert_metric_properties_bulk`) -/

/-- The VALUES rows `upsert_metrics_bulk` builds for one batch:
`[(p.device_id, p.name, p.uns_path, p.datatype) for p in batch_items]` —
note: no deduplication of the input. -/
def metricsBatchRows (batch : List MetricPayload) :
    List (Int × String × String × String) :=
  batch.map (fun p => (p.device_id, p.name, p.uns_path, p.datatype))

/-- The `grouped` nested dict of `upsert_metric_properties_bulk`:
`grouped.setdefault(payload.metric_id, {})[payload.key] = payload`. -/
def groupProperties (items : List MetricPropertyPayload) :
    List (Int × List (String × MetricPropertyPayload)) :=
  items.foldl
    (fun g p =>
      dictSet p.metric_id (dictSet p.key p ((dictGet p.metric_id g).getD [])) g)
    []

/-- Lookup of the payload retained for `(mid, key)` after grouping. -/
def groupedLookup (items : List MetricPropertyPayload) (mid : Int)
    (key : String) : Option MetricPropertyPayload :=
  dictGet key ((dictGet mid (groupProperties items)).getD [])

/-- The last payload in the input with the given natural key (the
last-write-wins representative). -/
def lastMatch (mid : Int) (key : String) :
    List MetricPropertyPayload → Option MetricPropertyPayload
  | [] => Option.none
  | p :: rest =>
    match lastMatch mid key rest with
    | some q => some q
    | Option.none =>
      if p.metric_id = mid ∧ p.key = key then some p else Option.none

theorem mem_keys_dictSet {κ ω : Type} [DecidableEq κ] {x k : κ} (v : ω) :
    ∀ d : List (κ × ω), x ∈ (dictSet k v d).map Prod.fst →
      x = k ∨ x ∈ d.map Prod.fst := by
  intro d
  induction d with
  | nil =>
    intro h
    simp only [dictSet, List.map_cons, List.map_nil, List.mem_singleton] at h
    exact Or.inl h
  | cons hd tl ih =>
    intro h
    obtain ⟨k', v'⟩ := hd
    by_cases hk : k = k'
    · rw [show dictSet k v ((k', v') :: tl) = (k, v) :: tl from by
        simp [dictSet, hk]] at h
      simp only [List.map_cons, List.mem_cons] at h
      rcases h with h | h
      · exact Or.inl h
      · exact Or.inr (by
          simp only [List.map_cons, List.mem_cons]
          exact Or.inr h)
    · rw [show dictSet k v ((k', v') :: tl) = (k', v') :: dictSet k v tl from by
        simp [dictSet, hk]] at h
      simp only [List.map_cons, List.mem_cons] at h
      rcases h with h | h
      · exact Or.inr (by
          simp only [List.map_cons, List.mem_cons]
          exact Or.inl h)
      · rcases ih h with h' | h'
        · exact Or.inl h'
        · exact Or.inr (by
            simp only [List.map_cons, List.mem_cons]
            exact Or.inr h')

theorem keys_dictSet_nodup {κ ω : Type} [DecidableEq κ] {k : κ} (v : ω) :
    ∀ d : List (κ × ω), (d.map Prod.fst).Nodup →
      ((dictSet k v d).map Prod.fst).Nodup := by
  intro d
  induction d with
  | nil => intro _; simp [dictSet]
  | cons hd tl ih =>
    intro hnd
    obtain ⟨k', v'⟩ := hd
    simp only [List.map_cons, List.nodup_cons] at hnd
    by_cases hk : k = k'
    · rw [show dictSet k v ((k', v') :: tl) = (k, v) :: tl from by
        simp [dictSet, hk]]
      simp only [List.map_cons, List.nodup_cons]
      rw [hk]
      exact hnd
    · rw [show dictSet k v ((k', v') :: tl) = (k', v') :: dictSet k v tl from by
        simp [dictSet, hk]]
      simp only [List.map_cons, List.nodup_cons]
      refine ⟨?_, ih hnd.2⟩
      intro hmem
      rcases mem_keys_dictSet v tl hmem with h | h
      · exact hk h.symm
      · exact hnd.1 h

theorem mem_dictSet {κ ω : Type} [DecidableEq κ] {e : κ × ω} {k : κ} (v : ω) :
    ∀ d : List (κ × ω), e ∈ dictSet k v d → e = (k, v) ∨ e ∈ d := by
  intro d
  induction d with
  | nil => intro h; simpa [dictSet] using h
  | cons hd tl ih =>
    intro h
    obtain ⟨k', v'⟩ := hd
    by_cases hk : k = k'
    · rw [show dictSet k v ((k', v') :: tl) = (k, v) :: tl from by
        simp [dictSet, hk]] at h
      rcases List.mem_cons.1 h with h | h
      · exact Or.inl h
      · exact Or.inr (List.mem_cons.2 (Or.inr h))
    · rw [show dictSet k v ((k', v') :: tl) = (k', v') :: dictSet k v tl from by
        simp [dictSet, hk]] at h
      rcases List.mem_cons.1 h with h | h
      · exact Or.inr (List.mem_cons.2 (Or.inl h))
      · rcases ih h with h' | h'
        · exact Or.inl h'
        · exact Or.inr (List.mem_cons.2 (Or.inr h'))

theorem dictGet_mem {κ ω : Type} [DecidableEq κ] {k : κ} {v : ω} :
    ∀ d : List (κ × ω), dictGet k d = some v → (k, v) ∈ d := by
  intro d
  induction d with
  | nil => intro h; cases h
  | cons hd tl ih =>
    intro h
    obtain ⟨k', v'⟩ := hd
    by_cases hk : k = k'
    · subst hk
      simp only [dictGet, if_pos rfl] at h
      injection h with h'
      subst h'
      exact List.mem_cons.2 (Or.inl rfl)
    · simp only [dictGet, if_neg hk] at h
      exact List.mem_cons.2 (Or.inr (ih h))

/-- One grouping step updates exactly the `(mid, key)` slot of the incoming
payload. -/
theorem groupedStep_lookup (g : List (Int × List (String × MetricPropertyPayload)))
    (p : MetricPropertyPayload) (mid : Int) (key : String) :
    dictGet key ((dictGet mid
        (dictSet p.metric_id
          (dictSet p.key p ((dictGet p.metric_id g).getD [])) g)).getD []) =
      (if p.metric_id = mid ∧ p.key = key then some p
       else dictGet key ((dictGet mid g).getD [])) := by
  by_cases hm : p.metric_id = mid
  · by_cases hk : p.key = key
    · rw [if_pos ⟨hm, hk⟩, hm, dictGet_dictSet_self]
      simp only [Option.getD]
      rw [hk, dictGet_dictSet_self]
    · rw [if_neg (by tauto), hm, dictGet_dictSet_self]
      simp only [Option.getD]
      rw [dictGet_dictSet_ne _ _ (fun h => hk h.symm)]
  · rw [if_neg (by tauto), dictGet_dictSet_ne _ _ (fun h => hm h.symm)]

theorem groupedLookup_foldl (mid : Int) (key : String) :
    ∀ (items : List MetricPropertyPayload)
      (g : List (Int × List (String × MetricPropertyPayload))),
      dictGet key ((dictGet mid (items.foldl
          (fun g p => dictSet p.metric_id
            (dictSet p.key p ((dictGet p.metric_id g).getD [])) g) g)).getD []) =
        (match lastMatch mid key items with
         | some q => some q
         | Option.none => dictGet key ((dictGet mid g).getD [])) := by
  intro items
  induction items with
  | nil => intro g; rfl
  | cons p rest ih =>
    intro g
    simp only [List.foldl]
    rw [ih]
    rcases hlast : lastMatch mid key rest with _ | q
    · simp only [lastMatch, hlast]
      rw [groupedStep_lookup g p mid key]
      by_cases hcond : p.metric_id = mid ∧ p.key = key
      · rw [if_pos hcond, if_pos hcond]
      · rw [if_neg hcond, if_neg hcond]
    · simp only [lastMatch, hlast]

/-- The grouping fold keeps outer and inner dict keys duplicate-free. -/
theorem groupProperties_nodup_aux :
    ∀ (items : List MetricPropertyPayload)
      (g : List (Int × List (String × MetricPropertyPayload))),
      (g.map Prod.fst).Nodup → (∀ e ∈ g, (e.2.map Prod.fst).Nodup) →
      ((items.foldl
          (fun g p => dictSet p.metric_id
            (dictSet p.key p ((dictGet p.metric_id g).getD [])) g) g).map
        Prod.fst).Nodup ∧
      (∀ e ∈ items.foldl
          (fun g p => dictSet p.metric_id
            (dictSet p.key p ((dictGet p.metric_id g).getD [])) g) g,
        (e.2.map Prod.fst).Nodup) := by
  intro items
  induction items with
  | nil => intro g h1 h2; exact ⟨h1, h2⟩
  | cons p rest ih =>
    intro g h1 h2
    simp only [List.foldl]
    refine ih _ (keys_dictSet_nodup _ g h1) ?_
    intro e he
    rcases mem_dictSet _ g he with he' | he'
    · subst he'
      dsimp only
      rcases hinner : dictGet p.metric_id g with _ | inner
      · simp only [Option.getD]
        exact keys_dictSet_nodup _ [] (by simp)
      · simp only [Option.getD]
        exact keys_dictSet_nodup _ inner (h2 _ (dictGet_mem g hinner))
    · exact h2 _ he'

/-- **C5 counterexample**: two metric payloads sharing `(device_id, name)`
both survive into the VALUES rows of `upsert_metrics_bulk` — the input is
*not* deduplicated by natural key. -/
theorem bulk_metrics_no_dedup_counterexample :
    metricsBatchRows [⟨1, "n", "p1", "int"⟩, ⟨1, "n", "p2", "float"⟩] =
      [(1, "n", "p1", "int"), (1, "n", "p2", "float")] ∧
    ¬ ((metricsBatchRows [⟨1, "n", "p1", "int"⟩, ⟨1, "n", "p2", "float"⟩]).map
        (fun r => (r.1, r.2.1))).Nodup := by
  refine ⟨rfl, ?_⟩
  decide

/-- **C5 amended** (spec §4.2 bulk semantics): `upsert_metric_properties_bulk`
deduplicates its input by `(metric_id, key)` with last-write-wins (the
grouped dict has duplicate-free outer and inner keys and each slot holds the
last payload with that natural key) before the multi-row INSERT;
`upsert_metrics_bulk`, however, passes its batch rows through verbatim with
no deduplication. -/
theorem bulk_dedup_semantics (items : List MetricPropertyPayload)
    (batch : List MetricPayload) :
    ((groupProperties items).map Prod.fst).Nodup ∧
    (∀ e ∈ groupProperties items, (e.2.map Prod.fst).Nodup) ∧
    (∀ mid key, groupedLookup items mid key = lastMatch mid key items) ∧
    metricsBatchRows batch =
      batch.map (fun p => (p.device_id, p.name, p.uns_path, p.datatype)) := by
  obtain ⟨h1, h2⟩ := groupProperties_nodup_aux items [] (by simp) (by simp)
  refine ⟨h1, h2, ?_, rfl⟩
  intro mid key
  unfold groupedLookup groupProperties
  rw [groupedLookup_foldl]
  rcases hlast : lastMatch mid key items with _ | q <;> simp [dictGet]

/-- Witness for `bulk_dedup_semantics`: of two property payloads with the
same `(metric_id, key)`, grouping retains the second. -/
theorem bulk_dedup_semantics_witness :
    groupedLookup [⟨1, "k", "int", PyVal.int 1⟩, ⟨1, "k", "int", PyVal.int 2⟩]
        1 "k" = some ⟨1, "k", "int", PyVal.int 2⟩ := by
  have h := (bulk_dedup_semantics
      [⟨1, "k", "int", PyVal.int 1⟩, ⟨1, "k", "int", PyVal.int 2⟩] []).2.2.1 1 "k"
  rw [h]
  rfl

end Repo

/-! ## `canary/client.py` — retry policy, dispatch loop, circuit breaker

Delays and monotonic-clock readings are Python floats used only through
comparison, `min`/`max`, doubling and subtraction; they are embedded as
rationals.  The jitter callable is a parameter. -/

namespace Canary

/-- The `_limits` loop of `RetryPolicy.__init__`:
`for _ in range(retries): limits.append(min(delay, max_delay));
delay = min(delay * 2, max_delay)`. -/
def mkLimits (maxDelay : ℚ) : ℚ → Nat → List ℚ
  | _, 0 => []
  | delay, n + 1 => min delay maxDelay :: mkLimits maxDelay (min (delay * 2) maxDelay) n

structure RetryPolicy where
  retries : Nat
  limits : List ℚ
  jitter : ℚ → ℚ

/-- `RetryPolicy.__init__` with `attempts = retries`, positive delays. -/
def RetryPolicy.make (attempts : Nat) (base maxDelay : ℚ) (jitter : ℚ → ℚ) :
    RetryPolicy :=
  ⟨attempts, mkLimits maxDelay base attempts, jitter⟩

/-- `RetryPolicy.max_attempts`: first try plus the retries. -/
def RetryPolicy.max_attempts (p : RetryPolicy) : Nat := p.retries + 1

/-- `RetryPolicy.next_delay`. -/
def RetryPolicy.next_delay (p : RetryPolicy) (attempt : Nat) : ℚ :=
  if attempt ≤ 1 then 0
  else
    let index : Int := min ((attempt : Int) - 2) ((p.limits.length : Int) - 1)
    if index < 0 then 0
    else max 0 (p.jitter (p.limits.getD index.toNat 0))

/-- `CanaryClient._dispatch` specialised to a sender that always raises a
retriable error: one send per loop iteration; when
`attempt >= max_attempts` the batch is dead-lettered and the loop returns,
otherwise the loop sleeps `next_delay(attempt + 1)` and retries.  Returns
the number of sender invocations and the sleeps in order.  The fuel is an
upper bound on iterations (the caller passes `max_attempts`). -/
def dispatchFailingGo (p : RetryPolicy) : Nat → Nat → Nat × List ℚ
  | _, 0 => (1, [])
  | attempt, fuel + 1 =>
    if attempt ≥ p.max_attempts then (1, [])
    else
      let rest := dispatchFailingGo p (attempt + 1) fuel
      (rest.1 + 1, p.next_delay (attempt + 1) :: rest.2)

def dispatchFailing (p : RetryPolicy) : Nat × List ℚ :=
  dispatchFailingGo p 1 p.max_attempts

theorem mkLimits_length (maxDelay : ℚ) :
    ∀ (n : Nat) (d : ℚ), (mkLimits maxDelay d n).length = n := by
  intro n
  induction n with
  | zero => intro d; rfl
  | succ m ih => intro d; simp [mkLimits, ih]

theorem mkLimits_get (maxDelay : ℚ) (hM : 0 < maxDelay) :
    ∀ (n k : Nat) (d : ℚ), 0 < d → k < n →
      (mkLimits maxDelay d n).get? k = some (min (d * 2 ^ k) maxDelay) := by
  intro n
  induction n with
  | zero => intro k d _ hk; omega
  | succ m ih =>
    intro k d hd hk
    cases k with
    | zero =>
      simp [mkLimits]
    | succ j =>
      have hd' : 0 < min (d * 2) maxDelay := lt_min (by linarith) hM
      have hj : j < m := by omega
      show (mkLimits maxDelay (min (d * 2) maxDelay) m).get? j = _
      rw [ih j (min (d * 2) maxDelay) hd' hj]
      congr 1
      have h2k : (0 : ℚ) < 2 ^ j := by positivity
      have h1 : (1 : ℚ) ≤ 2 ^ j := one_le_pow₀ (by norm_num)
      have hsplit : min (d * 2) maxDelay * 2 ^ j
          = min (d * 2 * 2 ^ j) (maxDelay * 2 ^ j) := by
        rcases le_total (d * 2) maxDelay with h | h
        · rw [min_eq_left h, min_eq_left (by nlinarith)]
        · rw [min_eq_right h, min_eq_right (by nlinarith)]
      rw [hsplit, min_assoc, min_eq_right (by nlinarith : maxDelay ≤ maxDelay * 2 ^ j)]
      congr 1
      ring

theorem next_delay_retry (r : Nat) (base maxDelay : ℚ) (jitter : ℚ → ℚ)
    (hb : 0 < base) (hM : 0 < maxDelay)
    (hj : ∀ q : ℚ, 0 < q → 0 ≤ jitter q)
    (n : Nat) (h1 : 1 ≤ n) (hr : n ≤ r) :
    (RetryPolicy.make r base maxDelay jitter).next_delay (n + 1)
      = jitter (min (base * 2 ^ (n - 1)) maxDelay) := by
  unfold RetryPolicy.next_delay
  have hgt : ¬ (n + 1 ≤ 1) := by omega
  rw [if_neg hgt]
  have hlen : (RetryPolicy.make r base maxDelay jitter).limits.length = r := by
    unfold RetryPolicy.make
    exact mkLimits_length maxDelay r base
  have hidx : min (((n : Int) + 1) - 2) (((RetryPolicy.make r base maxDelay
      jitter).limits.length : Int) - 1) = (n : Int) - 1 := by
    rw [hlen]
    omega
  have hnn : ¬ ((n : Int) - 1 < 0) := by omega
  simp only [Nat.cast_add, Nat.cast_one] at hidx ⊢
  rw [hidx, if_neg hnn]
  have htn : ((n : Int) - 1).toNat = n - 1 := by omega
  rw [htn]
  have hget : (RetryPolicy.make r base maxDelay jitter).limits.get? (n - 1)
      = some (min (base * 2 ^ (n - 1)) maxDelay) := by
    unfold RetryPolicy.make
    exact mkLimits_get maxDelay hM r (n - 1) base hb (by omega)
  have hgetD : (RetryPolicy.make r base maxDelay jitter).limits.getD (n - 1) 0
      = min (base * 2 ^ (n - 1)) maxDelay := by
    unfold List.getD
    rw [hget]
    rfl
  rw [hgetD]
  have hpos : 0 < min (base * 2 ^ (n - 1)) maxDelay :=
    lt_min (by positivity) hM
  exact max_eq_right (hj _ hpos)

/-- The sleeps the failing dispatch performs, written recursively: starting
at `attempt`, the next `k` retries each sleep `next_delay(attempt + 1)`,
`next_delay(attempt + 2)`, … -/
def expectedSleeps (p : RetryPolicy) : Nat → Nat → List ℚ
  | _, 0 => []
  | attempt, k + 1 => p.next_delay (attempt + 1) :: expectedSleeps p (attempt + 1) k

theorem expectedSleeps_length (p : RetryPolicy) :
    ∀ (k attempt : Nat), (expectedSleeps p attempt k).length = k := by
  intro k
  induction k with
  | zero => intro attempt; rfl
  | succ m ih => intro attempt; simp [expectedSleeps, ih]

theorem expectedSleeps_get (p : RetryPolicy) :
    ∀ (k attempt i : Nat), i < k →
      (expectedSleeps p attempt k).get? i = some (p.next_delay (attempt + i + 1)) := by
  intro k
  induction k with
  | zero => intro attempt i hi; omega
  | succ m ih =>
    intro attempt i hi
    cases i with
    | zero => rfl
    | succ j =>
      show (expectedSleeps p (attempt + 1) m).get? j = _
      rw [ih (attempt + 1) j (by omega)]
      congr 2
      omega

theorem dispatchFailingGo_spec (p : RetryPolicy) :
    ∀ (fuel attempt : Nat), 1 ≤ attempt → p.max_attempts ≤ attempt + fuel →
      (dispatchFailingGo p attempt fuel).1 = p.max_attempts - attempt + 1 ∧
      (dispatchFailingGo p attempt fuel).2 =
        expectedSleeps p attempt (p.max_attempts - attempt) := by
  intro fuel
  induction fuel with
  | zero =>
    intro attempt h1 hle
    have : p.max_attempts - attempt = 0 := by omega
    simp [dispatchFailingGo, this, expectedSleeps]
  | succ f ih =>
    intro attempt h1 hle
    by_cases hstop : attempt ≥ p.max_attempts
    · have : p.max_attempts - attempt = 0 := by omega
      simp [dispatchFailingGo, hstop, this, expectedSleeps]
    · have hlt : attempt < p.max_attempts := by omega
      obtain ⟨ihc, ihs⟩ := ih (attempt + 1) (by omega) (by omega)
      have hsub : p.max_attempts - attempt = (p.max_attempts - (attempt + 1)) + 1 := by
        omega
      constructor
      · simp only [dispatchFailingGo, if_neg hstop]
        rw [ihc]
        omega
      · simp only [dispatchFailingGo, if_neg hstop]
        rw [ihs, hsub]
        rfl

/-- **C6** (spec §4.5 retry & backoff, §8 scenario 5): with a sender that
always fails with a retriable error, `_dispatch` invokes the sender exactly
`1 + retry_attempts` times, and the sleep before the n-th retry is the
jitter function applied to `min(base * 2^(n-1), max_delay)` (for any jitter
that is non-negative on positive limits, as `uniform(0, limit)` is); in
particular with `base = 1/5`, `max = 4/5`, `retry_attempts = 2` and the
identity jitter the sleeps are exactly `1/5` then `2/5`. -/
theorem retry_dispatch_backoff (r : Nat) (base maxDelay : ℚ) (jitter : ℚ → ℚ)
    (hb : 0 < base) (hM : 0 < maxDelay)
    (hj : ∀ q : ℚ, 0 < q → 0 ≤ jitter q) :
    (dispatchFailing (RetryPolicy.make r base maxDelay jitter)).1 = 1 + r ∧
    (dispatchFailing (RetryPolicy.make r base maxDelay jitter)).2.length = r ∧
    (∀ n, 1 ≤ n → n ≤ r →
      (dispatchFailing (RetryPolicy.make r base maxDelay jitter)).2.get? (n - 1)
        = some (jitter (min (base * 2 ^ (n - 1)) maxDelay))) := by
  have hmax : (RetryPolicy.make r base maxDelay jitter).max_attempts = r + 1 := rfl
  obtain ⟨hc, hs⟩ := dispatchFailingGo_spec (RetryPolicy.make r base maxDelay jitter)
    (RetryPolicy.make r base maxDelay jitter).max_attempts 1 (le_refl 1) (by omega)
  have hsub : (RetryPolicy.make r base maxDelay jitter).max_attempts - 1 = r := by
    rw [hmax]
    omega
  refine ⟨?_, ?_, ?_⟩
  · unfold dispatchFailing
    rw [hc, hsub]
    omega
  · unfold dispatchFailing
    rw [hs, hsub]
    exact expectedSleeps_length _ r 1
  · intro n h1 hr
    unfold dispatchFailing
    rw [hs, hsub]
    have hlt : n - 1 < r := by omega
    rw [expectedSleeps_get _ r 1 (n - 1) hlt]
    have harg : 1 + (n - 1) + 1 = n + 1 := by omega
    rw [harg, next_delay_retry r base maxDelay jitter hb hM hj n h1 hr]

/-- Witness for `retry_dispatch_backoff`: the spec's concrete scenario
(`base = 0.2`, `max = 0.8`, two retries, jitter = identity) gives three
attempts and sleeps `0.2` then `0.4`. -/
theorem retry_dispatch_backoff_witness :
    (dispatchFailing (RetryPolicy.make 2 (1/5) (4/5) id)).1 = 1 + 2 ∧
    (dispatchFailing (RetryPolicy.make 2 (1/5) (4/5) id)).2.get? 0
      = some (1/5 : ℚ) ∧
    (dispatchFailing (RetryPolicy.make 2 (1/5) (4/5) id)).2.get? 1
      = some (2/5 : ℚ) := by
  have h := retry_dispatch_backoff 2 (1/5) (4/5) id (by norm_num) (by norm_num)
    (fun q hq => le_of_lt hq)
  refine ⟨h.1, ?_, ?_⟩
  · have h1 := h.2.2 1 (by norm_num) (by norm_num)
    rw [show (1 : Nat) - 1 = 0 from rfl] at h1
    rw [h1]
    norm_num
  · have h2 := h.2.2 2 (by norm_num) (by norm_num)
    rw [show (2 : Nat) - 1 = 1 from rfl] at h2
    rw [h2]
    norm_num

/-! ### `CircuitBreaker`

The Python state strings `"closed"`, `"open"`, `"half_open"` become the
constructors `closed`, `opened`, `halfOpen` (`open` is a Lean keyword).
The monotonic clock is passed explicitly to the operations that read it. -/

inductive BreakerState where
  | closed
  | opened
  | halfOpen
deriving DecidableEq

structure CircuitBreaker where
  threshold : Nat
  reset_timeout : ℚ
  state : BreakerState
  failures : Nat
  opened_at : ℚ
deriving DecidableEq

/-- `CircuitBreaker.__init__` (validation of the positive parameters is a
hypothesis of the theorem). -/
def CircuitBreaker.make (threshold : Nat) (reset : ℚ) : CircuitBreaker :=
  ⟨threshold, reset, .closed, 0, 0⟩

/-- `CircuitBreaker.time_until_allow` at clock reading `now`. -/
def CircuitBreaker.time_until_allow (b : CircuitBreaker) (now : ℚ) : ℚ :=
  if b.state = .opened then max 0 (b.reset_timeout - (now - b.opened_at)) else 0

/-- `CircuitBreaker.allow`: result and successor state. -/
def CircuitBreaker.allow (b : CircuitBreaker) (now : ℚ) : Bool × CircuitBreaker :=
  if b.state = .opened then
    if b.time_until_allow now > 0 then (false, b)
    else (true, { b with state := .halfOpen, failures := 0 })
  else (true, b)

/-- `CircuitBreaker.record_success`. -/
def CircuitBreaker.record_success (b : CircuitBreaker) : CircuitBreaker :=
  { b with state := .closed, failures := 0, opened_at := 0 }

/-- `CircuitBreaker.record_failure` at clock reading `now`. -/
def CircuitBreaker.record_failure (b : CircuitBreaker) (now : ℚ) : CircuitBreaker :=
  let failures := b.failures + 1
  if b.state = .halfOpen ∨ b.state = .opened ∨ failures ≥ b.threshold then
    { b with failures := failures, state := .opened, opened_at := now }
  else
    { b with failures := failures }

theorem record_failure_fields (b : CircuitBreaker) (now : ℚ) :
    (b.record_failure now).threshold = b.threshold ∧
    (b.record_failure now).reset_timeout = b.reset_timeout := by
  unfold CircuitBreaker.record_failure
  dsimp only
  constructor <;> (split <;> rfl)

theorem foldl_record_failure_fields (ts : List ℚ) :
    ∀ b : CircuitBreaker,
      (ts.foldl CircuitBreaker.record_failure b).threshold = b.threshold ∧
      (ts.foldl CircuitBreaker.record_failure b).reset_timeout = b.reset_timeout := by
  induction ts with
  | nil => intro b; exact ⟨rfl, rfl⟩
  | cons t0 rest ih =>
    intro b
    have hstep := record_failure_fields b t0
    have h := ih (b.record_failure t0)
    exact ⟨h.1.trans hstep.1, h.2.trans hstep.2⟩

/-- Folding exactly enough consecutive failures over a closed breaker opens
it with `opened_at` stamped by the last failure. -/
theorem foldl_record_failure_opens :
    ∀ (ts : List ℚ) (b : CircuitBreaker), b.state = .closed →
      b.failures + ts.length = b.threshold →
      ∀ tlast, ts.getLast? = some tlast →
        (ts.foldl CircuitBreaker.record_failure b).state = .opened ∧
        (ts.foldl CircuitBreaker.record_failure b).opened_at = tlast := by
  intro ts
  induction ts with
  | nil => intro b _ _ tlast h; cases h
  | cons t0 rest ih =>
    intro b hclosed hcount tlast hlast
    cases rest with
    | nil =>
      have hth : b.failures + 1 ≥ b.threshold := by
        simp only [List.length_cons, List.length_nil] at hcount
        omega
      have hlast' : tlast = t0 := by
        simp only [List.getLast?_singleton] at hlast
        injection hlast with h
        exact h.symm
      subst hlast'
      simp only [List.foldl]
      unfold CircuitBreaker.record_failure
      rw [if_pos (Or.inr (Or.inr hth))]
      exact ⟨rfl, rfl⟩
    | cons t1 rest' =>
      have hcount' : b.failures + 1 + (t1 :: rest').length = b.threshold := by
        simp only [List.length_cons] at hcount ⊢
        omega
      have hlt : b.failures + 1 < b.threshold := by
        simp only [List.length_cons] at hcount'
        omega
      have hstep : b.record_failure t0 = { b with failures := b.failures + 1 } := by
        unfold CircuitBreaker.record_failure
        rw [if_neg]
        intro hcond
        rcases hcond with h | h | h
        · rw [hclosed] at h
          cases h
        · rw [hclosed] at h
          cases h
        · omega
      have hlast' : (t1 :: rest').getLast? = some tlast := by
        rw [← hlast]
        rfl
      have := ih { b with failures := b.failures + 1 } hclosed hcount' tlast hlast'
      simpa [List.foldl, hstep] using this

/-- **C7** (spec §4.5 circuit breaker, §8): `threshold` consecutive
`record_failure`s on a fresh closed breaker open it with `opened_at` equal
to the last failure's clock reading; while less than `reset_timeout` has
elapsed `allow()` returns false and changes nothing; at or after
`reset_timeout` the first `allow()` returns true moving to `half_open` with
the counter reset, from which one `record_success` closes the breaker and
resets the counter while one `record_failure` re-opens it immediately. -/
theorem circuit_breaker_lifecycle (t : Nat) (reset : ℚ) (ts : List ℚ)
    (tlast : ℚ) (ht : 0 < t) (hreset : 0 < reset)
    (hlen : ts.length = t) (hlast : ts.getLast? = some tlast) :
    (ts.foldl CircuitBreaker.record_failure (CircuitBreaker.make t reset)).state
      = .opened ∧
    (ts.foldl CircuitBreaker.record_failure (CircuitBreaker.make t reset)).opened_at
      = tlast ∧
    (∀ now : ℚ, now - tlast < reset →
      ((ts.foldl CircuitBreaker.record_failure
          (CircuitBreaker.make t reset)).allow now).1 = false ∧
      ((ts.foldl CircuitBreaker.record_failure
          (CircuitBreaker.make t reset)).allow now).2
        = ts.foldl CircuitBreaker.record_failure (CircuitBreaker.make t reset)) ∧
    (∀ now : ℚ, reset ≤ now - tlast →
      ((ts.foldl CircuitBreaker.record_failure
          (CircuitBreaker.make t reset)).allow now).1 = true ∧
      ((ts.foldl CircuitBreaker.record_failure
          (CircuitBreaker.make t reset)).allow now).2.state = .halfOpen ∧
      ((ts.foldl CircuitBreaker.record_failure
          (CircuitBreaker.make t reset)).allow now).2.failures = 0 ∧
      (((ts.foldl CircuitBreaker.record_failure
          (CircuitBreaker.make t reset)).allow now).2.record_success).state
        = .closed ∧
      (((ts.foldl CircuitBreaker.record_failure
          (CircuitBreaker.make t reset)).allow now).2.record_success).failures
        = 0 ∧
      (∀ tf : ℚ,
        ((((ts.foldl CircuitBreaker.record_failure
            (CircuitBreaker.make t reset)).allow now).2.record_failure tf).state
          = .opened ∧
        (((ts.foldl CircuitBreaker.record_failure
            (CircuitBreaker.make t reset)).allow now).2.record_failure tf).opened_at
          = tf))) := by
  have hopen := foldl_record_failure_opens ts (CircuitBreaker.make t reset) rfl
    (by simpa [CircuitBreaker.make] using hlen) tlast hlast
  have hfields := foldl_record_failure_fields ts (CircuitBreaker.make t reset)
  set b1 := ts.foldl CircuitBreaker.record_failure (CircuitBreaker.make t reset)
    with hb1
  have hreset1 : b1.reset_timeout = reset := hfields.2
  refine ⟨hopen.1, hopen.2, ?_, ?_⟩
  · intro now hnow
    have htua : b1.time_until_allow now > 0 := by
      unfold CircuitBreaker.time_until_allow
      rw [if_pos hopen.1, hopen.2, hreset1]
      have : reset - (now - tlast) > 0 := by linarith
      rw [max_eq_right (le_of_lt this)]
      exact this
    unfold CircuitBreaker.allow
    rw [if_pos hopen.1, if_pos htua]
    exact ⟨rfl, rfl⟩
  · intro now hnow
    have htua : ¬ b1.time_until_allow now > 0 := by
      unfold CircuitBreaker.time_until_allow
      rw [if_pos hopen.1, hopen.2, hreset1]
      have h0 : reset - (now - tlast) ≤ 0 := by linarith
      rw [max_eq_left (by linarith)]
      linarith
    unfold CircuitBreaker.allow
    rw [if_pos hopen.1, if_neg htua]
    refine ⟨rfl, rfl, rfl, rfl, rfl, ?_⟩
    intro tf
    unfold CircuitBreaker.record_failure
    rw [if_pos (Or.inl rfl)]
    exact ⟨rfl, rfl⟩

/-- Witness for `circuit_breaker_lifecycle`: threshold 2, reset 10,
failures at times 1 and 3; `allow` at 5 is blocked, `allow` at 13 is
allowed and moves to half-open. -/
theorem circuit_breaker_lifecycle_witness :
    (([1, 3] : List ℚ).foldl CircuitBreaker.record_failure
      (CircuitBreaker.make 2 10)).state = .opened ∧
    ((([1, 3] : List ℚ).foldl CircuitBreaker.record_failure
      (CircuitBreaker.make 2 10)).allow 5).1 = false ∧
    ((([1, 3] : List ℚ).foldl CircuitBreaker.record_failure
      (CircuitBreaker.make 2 10)).allow 13).1 = true ∧
    ((([1, 3] : List ℚ).foldl CircuitBreaker.record_failure
      (CircuitBreaker.make 2 10)).allow 13).2.state = .halfOpen := by
  have h := circuit_breaker_lifecycle 2 10 [1, 3] 3 (by norm_num) (by norm_num)
    rfl rfl
  refine ⟨h.1, ?_, ?_, ?_⟩
  · exact (h.2.2.1 5 (by norm_num)).1
  · exact (h.2.2.2 13 (by norm_num)).1
  · exact (h.2.2.2 13 (by norm_num)).2.1

end Canary

/-! ## `sparkplug_b_utils.py` — compression wrapper handling

A Sparkplug payload is embedded by the fields these functions read: `uuid`,
`body` (a byte string, kept abstract as a list of bytes) and `metrics`.
`WhichOneof("value") == "string_value"` holds exactly when the metric's
oneof value is the string variant.  Decompression and protobuf re-parsing
are external effects; `unwrap_if_compressed` takes them as the function
parameter `inflate` (`gzip`-then-`zlib` inflate plus `ParseFromString`),
which the empty-body claim never reaches. -/

namespace Sparkplug

inductive MetricValue where
  | stringValue (s : String)
  | intValue (i : Int)
  | floatValue (q : ℚ)
  | booleanValue (b : Bool)
  | otherValue
deriving DecidableEq

structure Metric where
  name : String
  is_null : Bool
  value : Option MetricValue
deriving DecidableEq

structure Payload where
  uuid : String
  body : List Nat
  metrics : List Metric
deriving DecidableEq

/-- `_metric_algorithm_value`: the `string_value` of the first metric named
`algorithm` that is non-null and string-valued. -/
def metric_algorithm_value (p : Payload) : Option String :=
  let pick : Metric → Option String := fun m =>
    match m.value with
    | some (.stringValue s) =>
      if m.name = "algorithm" ∧ m.is_null = false then some s else Option.none
    | _ => Option.none
  (p.metrics.filterMap pick).head?

/-- `is_compressed_wrapper`: both detection arms require a non-empty body. -/
def is_compressed_wrapper (p : Payload) : Bool :=
  if p.uuid = "SPBV1.0_COMPRESSED" ∧ p.body.length > 0 then true
  else decide (metric_algorithm_value p = some "GZIP" ∧ p.body.length > 0)

/-- `unwrap_if_compressed`: return non-wrappers unchanged; raise
`CompressionError` on an empty body; otherwise inflate and re-parse. -/
def unwrap_if_compressed (inflate : List Nat → Except String Payload)
    (p : Payload) : Except String Payload :=
  if ¬ is_compressed_wrapper p then .ok p
  else if p.body = [] then .error "CompressionError: Compressed payload had empty body"
  else inflate p.body

/-- **C9 counterexample**: a payload carrying the compression marker
`uuid = "SPBV1.0_COMPRESSED"` but an empty body is returned unchanged by
`unwrap_if_compressed` — no `CompressionError` is raised (both arms of
`is_compressed_wrapper` require a non-empty body, so the empty-body error
branch is unreachable through it; the repo's own unit test
`test_unwrap_if_compressed_returns_original_when_body_missing` asserts this
behaviour). -/
theorem empty_wrapper_counterexample :
    unwrap_if_compressed (fun _ => .error "unreachable")
        ⟨"SPBV1.0_COMPRESSED", [], []⟩
      = .ok ⟨"SPBV1.0_COMPRESSED", [], []⟩ ∧
    ¬ (∃ e, unwrap_if_compressed (fun _ => .error "unreachable")
        ⟨"SPBV1.0_COMPRESSED", [], []⟩ = .error e) := by
  constructor
  · rfl
  · intro h
    obtain ⟨e, he⟩ := h
    rw [show unwrap_if_compressed (fun _ => .error "unreachable")
        ⟨"SPBV1.0_COMPRESSED", [], []⟩
      = .ok ⟨"SPBV1.0_COMPRESSED", [], []⟩ from rfl] at he
    cases he

/-- **C9 amended** (spec §4.3 payload decoding): a payload whose body is
empty is never classified as a compression wrapper — even when its uuid is
`"SPBV1.0_COMPRESSED"` or it carries an `algorithm = "GZIP"` metric — and
`unwrap_if_compressed` returns it unchanged rather than raising
`CompressionError`; the error branch only guards non-wrapper-classified
inputs and is unreachable. -/
theorem empty_body_not_wrapper (p : Payload)
    (inflate : List Nat → Except String Payload) (hbody : p.body = []) :
    is_compressed_wrapper p = false ∧
    unwrap_if_compressed inflate p = .ok p := by
  have hw : is_compressed_wrapper p = false := by
    unfold is_compressed_wrapper
    rw [if_neg]
    · simp [hbody]
    · intro h
      rw [hbody] at h
      simp at h
  refine ⟨hw, ?_⟩
  unfold unwrap_if_compressed
  rw [if_pos]
  simp [hw]

/-- Witness for `empty_body_not_wrapper` at the uuid-marked empty payload. -/
theorem empty_body_not_wrapper_witness :
    is_compressed_wrapper ⟨"SPBV1.0_COMPRESSED", [],
      [⟨"algorithm", false, some (.stringValue "GZIP")⟩]⟩ = false ∧
    unwrap_if_compressed (fun _ => .error "unreachable")
        ⟨"SPBV1.0_COMPRESSED", [],
          [⟨"algorithm", false, some (.stringValue "GZIP")⟩]⟩
      = .ok ⟨"SPBV1.0_COMPRESSED", [],
          [⟨"algorithm", false, some (.stringValue "GZIP")⟩]⟩ :=
  empty_body_not_wrapper
    ⟨"SPBV1.0_COMPRESSED", [], [⟨"algorithm", false, some (.stringValue "GZIP")⟩]⟩
    (fun _ => .error "unreachable") rfl

end Sparkplug

/-! ## `alias_cache.py` — alias registry serialization

Python strings are embedded as `List Char` so that the f-string
concatenation `f"{group}|{edge_node}|{device_token}"` and
`composite_key.split("|", 2)` can be reasoned about directly.  `str(alias)`
and `int(alias)` on the integer alias keys become decimal rendering and
parsing (`int()` is modelled on the `-?digits` forms `str` emits; Python
raising `ValueError`/`KeyError` on malformed input becomes `Option.none`).
Dicts are the same insertion-ordered association lists as elsewhere in this
file. -/

namespace AliasCache

/-- Python `str` for this module. -/
abbrev PyStr : Type := List Char

/-- Decimal digits of `n`, most significant first (`str(n)` for `n ≥ 0`). -/
def natToDigits (n : Nat) : List Char :=
  if _h : n < 10 then [Nat.digitChar n]
  else natToDigits (n / 10) ++ [Nat.digitChar (n % 10)]
termination_by n
decreasing_by exact Nat.div_lt_self (by omega) (by omega)

/-- Python `str(i)` for an `int`. -/
def intToStr (i : Int) : PyStr :=
  if i < 0 then '-' :: natToDigits i.natAbs else natToDigits i.toNat

/-- The numeric value of a decimal digit character. -/
def digitVal (c : Char) : Option Nat :=
  if '0' ≤ c ∧ c ≤ '9' then some (c.toNat - '0'.toNat) else Option.none

def parseNatAux : Nat → List Char → Option Nat
  | acc, [] => some acc
  | acc, c :: rest =>
    match digitVal c with
    | some d => parseNatAux (acc * 10 + d) rest
    | Option.none => Option.none

/-- Parse a non-empty all-digit string. -/
def parseNat (s : List Char) : Option Nat :=
  match s with
  | [] => Option.none
  | _ => parseNatAux 0 s

/-- Python `int(s)` on the canonical `-?digits` forms `str` produces. -/
def parseInt (s : List Char) : Option Int :=
  match s with
  | [] => Option.none
  | c :: rest =>
    if c = '-' then (parseNat rest).map (fun n => -(n : Int))
    else (parseNat (c :: rest)).map (fun n => (n : Int))

/-- Split off the prefix before the first `'|'`. -/
def splitOnce (s : List Char) : Option (List Char × List Char) :=
  match s with
  | [] => Option.none
  | c :: rest =>
    if c = '|' then some ([], rest)
    else (splitOnce rest).map (fun p => (c :: p.1, p.2))

/-- Python `s.split("|", 2)`: at most two splits, the remainder keeps any
further `'|'`. -/
def splitPipe2 (s : List Char) : List (List Char) :=
  match splitOnce s with
  | Option.none => [s]
  | some (a, r1) =>
    match splitOnce r1 with
    | Option.none => [a, r1]
    | some (b, r2) => [a, b, r2]

/-- `AliasKey = Tuple[str, str, Optional[str]]`. -/
abbrev AliasKey : Type := PyStr × PyStr × Option PyStr

/-- `f"{group}|{edge_node}|{device_token}"` with `"" if device is None`. -/
def compositeKey (k : AliasKey) : PyStr :=
  k.1 ++ ('|' :: k.2.1) ++ ('|' :: (k.2.2.getD []))

/-- `{str(alias): info for alias, info in entries.items()}`. -/
def serializeEntries {α : Type} (entries : List (Int × α)) : List (PyStr × α) :=
  entries.foldl (fun d av => dictSet (intToStr av.1) av.2 d) []

/-- `serialize_alias_maps`. -/
def serialize_alias_maps {α : Type} (m : List (AliasKey × List (Int × α))) :
    List (PyStr × List (PyStr × α)) :=
  m.foldl (fun acc kv => dictSet (compositeKey kv.1) (serializeEntries kv.2) acc) []

/-- `{int(alias): info for alias, info in entries.items()}`; `none` models
the `ValueError` Python would raise on an unparsable alias. -/
def parseEntries {α : Type} (entries : List (PyStr × α)) :
    Option (List (Int × α)) :=
  entries.foldlM (fun d sv => (parseInt sv.1).map (fun i => dictSet i sv.2 d)) []

/-- `deserialize_alias_maps`; `none` models the exceptions Python would
raise (too few `'|'` parts or an unparsable alias). -/
def deserialize_alias_maps {α : Type} (d : List (PyStr × List (PyStr × α))) :
    Option (List (AliasKey × List (Int × α))) :=
  d.foldlM
    (fun acc kv =>
      match splitPipe2 kv.1 with
      | [g, e, dtok] =>
        (parseEntries kv.2).map (fun inner =>
          dictSet (g, e, (if dtok = [] then Option.none else some dtok)) inner acc)
      | _ => Option.none)
    []

theorem digitVal_digitChar {n : Nat} (h : n < 10) :
    digitVal (Nat.digitChar n) = some n := by
  interval_cases n <;> decide

theorem digitChar_ne_dash {n : Nat} (h : n < 10) : Nat.digitChar n ≠ '-' := by
  interval_cases n <;> decide

theorem natToDigits_ne_nil (n : Nat) : natToDigits n ≠ [] := by
  rw [natToDigits]
  split
  · simp
  · simp

theorem natToDigits_ne_dash (n : Nat) : ∀ c ∈ natToDigits n, c ≠ '-' := by
  induction n using Nat.strong_induction_on with
  | _ n ih =>
    intro c hc
    by_cases h10 : n < 10
    · rw [natToDigits, dif_pos h10] at hc
      rcases List.mem_singleton.1 hc with h
      subst h
      exact digitChar_ne_dash h10
    · rw [natToDigits, dif_neg h10] at hc
      rcases List.mem_append.1 hc with h | h
      · exact ih (n / 10) (Nat.div_lt_self (by omega) (by omega)) c h
      · rcases List.mem_singleton.1 h with h'
        subst h'
        exact digitChar_ne_dash (Nat.mod_lt n (by omega))

theorem parseNatAux_append (ys : List Char) :
    ∀ (xs : List Char) (acc : Nat),
      parseNatAux acc (xs ++ ys) =
        match parseNatAux acc xs with
        | some a => parseNatAux a ys
        | Option.none => Option.none := by
  intro xs
  induction xs with
  | nil => intro acc; rfl
  | cons c rest ih =>
    intro acc
    rw [show ((c :: rest) ++ ys : List Char) = c :: (rest ++ ys) from rfl]
    rw [show parseNatAux acc (c :: (rest ++ ys)) =
        (match digitVal c with
         | some d => parseNatAux (acc * 10 + d) (rest ++ ys)
         | Option.none => Option.none) from rfl]
    rw [show parseNatAux acc (c :: rest) =
        (match digitVal c with
         | some d => parseNatAux (acc * 10 + d) rest
         | Option.none => Option.none) from rfl]
    rcases hd : digitVal c with _ | d
    · rfl
    · exact ih (acc * 10 + d)

theorem parseNat_natToDigits (n : Nat) : parseNat (natToDigits n) = some n := by
  induction n using Nat.strong_induction_on with
  | _ n ih =>
    rw [natToDigits]
    by_cases h10 : n < 10
    · rw [dif_pos h10]
      show parseNatAux 0 [Nat.digitChar n] = some n
      rw [show parseNatAux 0 [Nat.digitChar n] =
          (match digitVal (Nat.digitChar n) with
           | some d => parseNatAux (0 * 10 + d) []
           | Option.none => Option.none) from rfl]
      rw [digitVal_digitChar h10]
      show some (0 * 10 + n) = some n
      congr 1
      omega
    · rw [dif_neg h10]
      have hne := natToDigits_ne_nil (n / 10)
      rcases ha : natToDigits (n / 10) with _ | ⟨a0, as⟩
      · exact absurd ha hne
      · have hih := ih (n / 10) (Nat.div_lt_self (by omega) (by omega))
        rw [ha] at hih
        have hih' : parseNatAux 0 (a0 :: as) = some (n / 10) := hih
        show parseNatAux 0 ((a0 :: as) ++ [Nat.digitChar (n % 10)]) = some n
        rw [parseNatAux_append, hih']
        show parseNatAux (n / 10) [Nat.digitChar (n % 10)] = some n
        rw [show parseNatAux (n / 10) [Nat.digitChar (n % 10)] =
            (match digitVal (Nat.digitChar (n % 10)) with
             | some d => parseNatAux (n / 10 * 10 + d) []
             | Option.none => Option.none) from rfl]
        rw [digitVal_digitChar (Nat.mod_lt n (by omega))]
        show some (n / 10 * 10 + n % 10) = some n
        congr 1
        omega

theorem parseInt_intToStr (i : Int) : parseInt (intToStr i) = some i := by
  unfold intToStr
  by_cases hneg : i < 0
  · rw [if_pos hneg]
    show (if ('-' : Char) = '-' then
        (parseNat (natToDigits i.natAbs)).map (fun n => -(n : Int))
      else (parseNat ('-' :: natToDigits i.natAbs)).map (fun n => (n : Int)))
        = some i
    rw [if_pos rfl, parseNat_natToDigits]
    show some (-(i.natAbs : Int)) = some i
    congr 1
    omega
  · rw [if_neg hneg]
    rcases ha : natToDigits i.toNat with _ | ⟨a0, as⟩
    · exact absurd ha (natToDigits_ne_nil _)
    · have h0 : a0 ≠ '-' := by
        refine natToDigits_ne_dash i.toNat a0 ?_
        rw [ha]
        exact List.mem_cons.2 (Or.inl rfl)
      show (if a0 = '-' then (parseNat as).map (fun n => -(n : Int))
        else (parseNat (a0 :: as)).map (fun n => (n : Int))) = some i
      rw [if_neg h0, ← ha, parseNat_natToDigits]
      show some ((i.toNat : Int)) = some i
      congr 1
      omega

theorem intToStr_inj {a b : Int} (h : intToStr a = intToStr b) : a = b := by
  have ha := parseInt_intToStr a
  have hb := parseInt_intToStr b
  rw [h] at ha
  rw [ha] at hb
  injection hb

theorem splitOnce_append {g : List Char} (rest : List Char) (hg : '|' ∉ g) :
    splitOnce (g ++ '|' :: rest) = some (g, rest) := by
  induction g with
  | nil => simp [splitOnce]
  | cons c cs ih =>
    simp only [List.mem_cons] at hg
    push_neg at hg
    show splitOnce (c :: (cs ++ '|' :: rest)) = _
    unfold splitOnce
    rw [if_neg (fun h => hg.1 h.symm), ih hg.2]
    rfl

theorem splitPipe2_parts {g e : List Char} (d : List Char)
    (hg : '|' ∉ g) (he : '|' ∉ e) :
    splitPipe2 (g ++ '|' :: (e ++ '|' :: d)) = [g, e, d] := by
  unfold splitPipe2
  rw [splitOnce_append _ hg]
  dsimp only
  rw [splitOnce_append _ he]

theorem splitPipe2_compositeKey (k : AliasKey)
    (hg : '|' ∉ k.1) (he : '|' ∉ k.2.1) :
    splitPipe2 (compositeKey k) = [k.1, k.2.1, k.2.2.getD []] := by
  unfold compositeKey
  rw [show (k.1 ++ ('|' :: k.2.1) ++ ('|' :: k.2.2.getD []) : List Char)
      = k.1 ++ '|' :: (k.2.1 ++ '|' :: k.2.2.getD []) by
    simp [List.append_assoc]]
  exact splitPipe2_parts _ hg he

/-- Recover the optional device from its serialized token. -/
theorem device_of_token (dev : Option PyStr) (hdev : dev ≠ some []) :
    (if dev.getD [] = ([] : List Char) then Option.none else some (dev.getD []))
      = dev := by
  rcases dev with _ | dv
  · rfl
  · have hne : dv ≠ [] := fun h => hdev (by rw [h])
    simp [Option.getD, hne]

theorem dictSet_append_of_not_mem {κ ω : Type} [DecidableEq κ] {k : κ} (v : ω) :
    ∀ d : List (κ × ω), k ∉ d.map Prod.fst → dictSet k v d = d ++ [(k, v)] := by
  intro d
  induction d with
  | nil => intro _; rfl
  | cons hd tl ih =>
    intro hk
    obtain ⟨k', v'⟩ := hd
    simp only [List.map_cons, List.mem_cons] at hk
    push_neg at hk
    show dictSet k v ((k', v') :: tl) = (k', v') :: (tl ++ [(k, v)])
    unfold dictSet
    rw [if_neg hk.1, ih hk.2]

theorem foldl_dictSet_eq_append {κ ω : Type} [DecidableEq κ] :
    ∀ (ps acc : List (κ × ω)),
      (∀ p ∈ ps, p.1 ∉ acc.map Prod.fst) → (ps.map Prod.fst).Nodup →
      ps.foldl (fun d kv => dictSet kv.1 kv.2 d) acc = acc ++ ps := by
  intro ps
  induction ps with
  | nil => intro acc _ _; simp
  | cons p rest ih =>
    intro acc hfresh hnd
    simp only [List.map_cons, List.nodup_cons] at hnd
    have hp : p.1 ∉ acc.map Prod.fst := hfresh p (List.mem_cons.2 (Or.inl rfl))
    simp only [List.foldl]
    rw [show dictSet p.1 p.2 acc = acc ++ [p] by
      rw [dictSet_append_of_not_mem p.2 acc hp]]
    rw [ih (acc ++ [p]) ?fresh hnd.2]
    · simp
    case fresh =>
      intro q hq
      rw [List.map_append, List.mem_append]
      rintro (h | h)
      · exact hfresh q (List.mem_cons.2 (Or.inr hq)) h
      · simp only [List.map_cons, List.map_nil, List.mem_singleton] at h
        exact hnd.1 (h ▸ List.mem_map.2 ⟨q, hq, rfl⟩)

theorem serializeEntries_eq_map {α : Type} (e : List (Int × α))
    (hnd : (e.map Prod.fst).Nodup) :
    serializeEntries e = e.map (fun av => (intToStr av.1, av.2)) := by
  unfold serializeEntries
  rw [show e.foldl (fun d av => dictSet (intToStr av.1) av.2 d) []
      = (e.map (fun av => (intToStr av.1, av.2))).foldl
          (fun d kv => dictSet kv.1 kv.2 d) [] by
    rw [List.foldl_map]]
  rw [foldl_dictSet_eq_append _ [] (by simp) ?nodup]
  · simp
  case nodup =>
    rw [show (e.map (fun av => (intToStr av.1, av.2))).map Prod.fst
        = (e.map Prod.fst).map intToStr by
      rw [List.map_map, List.map_map]
      rfl]
    exact hnd.map (fun a b h => intToStr_inj h)

theorem parseEntries_map_aux {α : Type} :
    ∀ (e : List (Int × α)) (acc : List (Int × α)),
      List.foldlM (fun d sv => (parseInt sv.1).map (fun i => dictSet i sv.2 d)) acc
          (e.map (fun av => (intToStr av.1, av.2)))
        = some (e.foldl (fun d av => dictSet av.1 av.2 d) acc) := by
  intro e
  induction e with
  | nil => intro acc; rfl
  | cons a rest ih =>
    intro acc
    simp only [List.map_cons, List.foldlM, parseInt_intToStr, Option.map_some]
    exact ih (dictSet a.1 a.2 acc)

theorem parseEntries_serializeEntries {α : Type} (e : List (Int × α))
    (hnd : (e.map Prod.fst).Nodup) :
    parseEntries (serializeEntries e) = some e := by
  rw [serializeEntries_eq_map e hnd]
  unfold parseEntries
  rw [parseEntries_map_aux e []]
  congr 1
  rw [foldl_dictSet_eq_append e [] (by simp) hnd]
  simp

theorem compositeKey_inj_on {k k' : AliasKey}
    (hg : '|' ∉ k.1) (he : '|' ∉ k.2.1) (hd : k.2.2 ≠ some [])
    (hg' : '|' ∉ k'.1) (he' : '|' ∉ k'.2.1) (hd' : k'.2.2 ≠ some [])
    (h : compositeKey k = compositeKey k') : k = k' := by
  have hs : splitPipe2 (compositeKey k) = splitPipe2 (compositeKey k') := by rw [h]
  rw [splitPipe2_compositeKey k hg he, splitPipe2_compositeKey k' hg' he'] at hs
  injection hs with h1 hs
  injection hs with h2 hs
  injection hs with h3 _
  have hdev : k.2.2 = k'.2.2 := by
    rw [← device_of_token k.2.2 hd, ← device_of_token k'.2.2 hd', h3]
  obtain ⟨g1, e1, d1⟩ := k
  obtain ⟨g2, e2, d2⟩ := k'
  simp only at h1 h2 hdev
  rw [h1, h2, hdev]

theorem serialize_eq_map {α : Type} (m : List (AliasKey × List (Int × α)))
    (hkeys : (m.map Prod.fst).Nodup)
    (hgood : ∀ kv ∈ m, '|' ∉ kv.1.1 ∧ '|' ∉ kv.1.2.1 ∧ kv.1.2.2 ≠ some []) :
    serialize_alias_maps m
      = m.map (fun kv => (compositeKey kv.1, serializeEntries kv.2)) := by
  unfold serialize_alias_maps
  rw [show m.foldl (fun acc kv => dictSet (compositeKey kv.1)
        (serializeEntries kv.2) acc) []
      = (m.map (fun kv => (compositeKey kv.1, serializeEntries kv.2))).foldl
          (fun d kv => dictSet kv.1 kv.2 d) [] by
    rw [List.foldl_map]]
  rw [foldl_dictSet_eq_append _ [] (by simp) ?nodup]
  · simp
  case nodup =>
    rw [show (m.map (fun kv => (compositeKey kv.1, serializeEntries kv.2))).map
          Prod.fst
        = (m.map Prod.fst).map compositeKey by
      rw [List.map_map, List.map_map]
      rfl]
    refine List.Nodup.map_on ?_ hkeys
    intro x hx y hy hxy
    obtain ⟨kvx, hkvx, hkx⟩ := List.mem_map.1 hx
    obtain ⟨kvy, hkvy, hky⟩ := List.mem_map.1 hy
    obtain ⟨hgx, hex, hdx⟩ := hgood kvx hkvx
    obtain ⟨hgy, hey, hdy⟩ := hgood kvy hkvy
    subst hkx
    subst hky
    exact compositeKey_inj_on hgx hex hdx hgy hey hdy hxy

theorem deserialize_map_aux {α : Type} :
    ∀ (m : List (AliasKey × List (Int × α)))
      (acc : List (AliasKey × List (Int × α))),
      (∀ kv ∈ m, '|' ∉ kv.1.1 ∧ '|' ∉ kv.1.2.1 ∧ kv.1.2.2 ≠ some []) →
      (∀ kv ∈ m, (kv.2.map Prod.fst).Nodup) →
      List.foldlM
          (fun acc kv =>
            match splitPipe2 kv.1 with
            | [g, e, dtok] =>
              (parseEntries kv.2).map (fun inner =>
                dictSet (g, e, (if dtok = [] then Option.none else some dtok))
                  inner acc)
            | _ => Option.none)
          acc
          (m.map (fun kv => (compositeKey kv.1, serializeEntries kv.2)))
        = some (m.foldl (fun a kv => dictSet kv.1 kv.2 a) acc) := by
  intro m
  induction m with
  | nil => intro acc _ _; rfl
  | cons kv rest ih =>
    intro acc hgood hinner
    obtain ⟨hg, he, hd⟩ := hgood kv (List.mem_cons.2 (Or.inl rfl))
    have hnd := hinner kv (List.mem_cons.2 (Or.inl rfl))
    simp only [List.map_cons, List.foldlM]
    rw [splitPipe2_compositeKey kv.1 hg he]
    rw [parseEntries_serializeEntries kv.2 hnd]
    simp only [Option.map_some]
    rw [device_of_token kv.1.2.2 hd]
    show List.foldlM _ (dictSet (kv.1.1, kv.1.2.1, kv.1.2.2) kv.2 acc) _ = _
    rw [show ((kv.1.1, kv.1.2.1, kv.1.2.2) : AliasKey) = kv.1 from rfl]
    exact ih (dictSet kv.1 kv.2 acc)
      (fun q hq => hgood q (List.mem_cons.2 (Or.inr hq)))
      (fun q hq => hinner q (List.mem_cons.2 (Or.inr hq)))

/-- **C10** (implicit; `alias_cache.py`): for every alias registry whose
keys have `'|'`-free group and edge components and a device that is `None`
or non-empty, and whose maps are genuine dicts (duplicate-free keys),
`deserialize_alias_maps (serialize_alias_maps m) = m`. -/
theorem alias_cache_roundtrip {α : Type} (m : List (AliasKey × List (Int × α)))
    (hkeys : (m.map Prod.fst).Nodup)
    (hgood : ∀ kv ∈ m, '|' ∉ kv.1.1 ∧ '|' ∉ kv.1.2.1 ∧ kv.1.2.2 ≠ some [])
    (hinner : ∀ kv ∈ m, (kv.2.map Prod.fst).Nodup) :
    deserialize_alias_maps (serialize_alias_maps m) = some m := by
  rw [serialize_eq_map m hkeys hgood]
  unfold deserialize_alias_maps
  rw [deserialize_map_aux m [] hgood hinner]
  congr 1
  rw [foldl_dictSet_eq_append m [] (by simp) hkeys]
  simp

/-- Witness for `alias_cache_roundtrip` on a registry with a node-scoped
and a device-scoped key. -/
theorem alias_cache_roundtrip_witness :
    deserialize_alias_maps (serialize_alias_maps
        ([((['g'], ['e'], Option.none), [((7 : Int), (1 : Int))]),
          ((['g'], ['e'], some ['d']), [(12, 2), (5, 3)])]))
      = some [((['g'], ['e'], Option.none), [((7 : Int), (1 : Int))]),
          ((['g'], ['e'], some ['d']), [(12, 2), (5, 3)])] := by
  exact alias_cache_roundtrip _ (by decide) (by decide) (by decide)

end AliasCache

end UnsMetadataSync
